import Mathlib

/-!
# A verification of the Formic glob pattern engine (`foldersync/pattern.py`)

This file gives a shallow embedding of the pattern engine of
`src/foldersync/pattern.py` and proves / refutes the frozen behavioural claims
about it.  The embedding follows the Python source line by line:

* `Matcher`, `Matcher.create`, `Matcher.match` — the matcher factory and the
  two matcher kinds (`FNMatcher` via `fnmatch`, `ConstantMatcher`);
* `Section`, `Section.matchIter` (with the generic and the single-element
  fast path) — the per-section search;
* `MatchType` constants — the verdict bitfield;
* `Pattern.ofElements`, `Pattern.create`, `simplify` — compilation;
* `Pattern.match_directory` with `matchRecurse` — the recursive search,
  including the source's `match | MatchType.MATCH` test (a bitwise OR);
* `Pattern.match_files`, `PatternSet` — the set-level operations.

Python `int` arithmetic in the iterators is modelled with `Int`
(subtractions such as `len(path_elements) - self.length` may be negative and
feed the guards).  Python `os.path.normcase` is the identity on POSIX, and is
modelled as such.  List indexing in the iterators is total in the model
(`getD`); every index reachable from a call with `start_at ≥ 0` is in bounds,
so the default value is never observed in the theorems below.
-/

namespace Foldersync

/-- POSIX `os.path.normcase` is the identity function. -/
def normcase (s : String) : String := s

/-- Shell-style wildcard matching of `fnmatch.fnmatch` restricted to the `*`
and `?` meta-characters (the glob surface of this engine; `fnmatch`'s
character classes are never produced by `Matcher.create` inputs, which come
from `/`-separated glob components).  First argument: the pattern; second:
the candidate string, as lists of characters. -/
def wildMatch : List Char → List Char → Bool
  | [], [] => true
  | [], _ :: _ => false
  | '*' :: ps, [] => wildMatch ps []
  | '*' :: ps, c :: cs => wildMatch ps (c :: cs) || wildMatch ('*' :: ps) cs
  | '?' :: _, [] => false
  | '?' :: ps, _ :: cs => wildMatch ps cs
  | _ :: _, [] => false
  | p :: ps, c :: cs => p == c && wildMatch ps cs
termination_by pat s => (pat.length, s.length)

/-- The two `Matcher` subclasses: `FNMatcher` (wildcard) and
`ConstantMatcher` (literal).  Both store the case-normalised pattern. -/
inductive Matcher where
  | fnm (pattern : String)
  | const (pattern : String)
deriving DecidableEq, Repr

/-- `Matcher.create`: wildcard patterns (containing `?` or `*`) become
`FNMatcher`, everything else `ConstantMatcher`. -/
def Matcher.create (pattern : String) : Matcher :=
  if pattern.toList.contains '?' || pattern.toList.contains '*' then
    .fnm (normcase pattern)
  else
    .const (normcase pattern)

/-- `Matcher.match`: `FNMatcher` uses `fnmatch` (which case-normalises its
arguments); `ConstantMatcher` compares with the case-normalised candidate. -/
def Matcher.match : Matcher → String → Bool
  | .fnm p, s => wildMatch p.toList (normcase s).toList
  | .const p, s => p == normcase s

/-- A `Section`: the matchers of a contiguous run of glob components between
`**` separators, plus the two bound flags assigned by the enclosing
`Pattern`. -/
structure Section where
  elements : List Matcher
  bound_start : Bool
  bound_end : Bool
deriving DecidableEq, Repr

/-- The `Section` constructor wraps each component string with
`Matcher.create`; the bound flags default to `False`. -/
def Section.ofStrings (elems : List String) : Section :=
  { elements := elems.map Matcher.create, bound_start := false, bound_end := false }

/-- The list of integers `a, a+1, …, b-1` — Python's `range(a, b)` over
`int`s. -/
def intRange (a b : Int) : List Int :=
  (List.range (b - a).toNat).map (fun (i : Nat) => a + (i : Int))

/-- The inner loop of `_match_iter_generic`: test the matchers pairwise
against successive path elements starting at (integer) index `i`, with the
short-circuit `break` of the source expressed by `&&`. -/
def matchersAt : List Matcher → List String → Int → Bool
  | [], _, _ => true
  | m :: ms, pe, i => m.match (pe.getD i.toNat "") && matchersAt ms pe (i + 1)

/-- `Section._match_iter_generic`: the search windows derived from the bound
flags, the impossibility guard, and the candidate loop. -/
def matchIterGeneric (s : Section) (path_elements : List String) (start_at : Int) :
    List Int :=
  let length : Int := path_elements.length
  let e : Int := if s.bound_start then 1 else length - s.elements.length + 1
  let start : Int := if s.bound_end then length - s.elements.length else start_at
  if start > e || start < start_at || e > length - s.elements.length + 1 then
    []
  else
    (intRange start e).filterMap fun index =>
      if matchersAt s.elements path_elements index then
        some (index + s.elements.length)
      else
        none

/-- `Section._match_iter_single`: the fast path for sections holding exactly
one matcher. -/
def matchIterSingle (s : Section) (path_elements : List String) (start_at : Int) :
    List Int :=
  let length : Int := path_elements.length
  if length == 0 then
    []
  else
    let start : Int := if s.bound_end then length - 1 else start_at
    if s.bound_end && start < start_at then
      []
    else
      let e : Int := if s.bound_start then 1 else length
      if !s.bound_start && start > e then
        []
      else
        (intRange start e).filterMap fun index =>
          if (s.elements.getD 0 (Matcher.const "")).match
              (path_elements.getD index.toNat "") then
            some (index + 1)
          else
            none

/-- `Section.match_iter`: dispatch between the single-element fast path and
the generic implementation. -/
def Section.matchIter (s : Section) (path_elements : List String) (start_at : Int) :
    List Int :=
  if s.elements.length == 1 then
    matchIterSingle s path_elements start_at
  else
    matchIterGeneric s path_elements start_at

/-! The `MatchType` bitfield constants. -/

def BIT_MATCH : Nat := 1
def BIT_ALL_SUBDIRECTORIES : Nat := 2
def BIT_NO_SUBDIRECTORIES : Nat := 4
def NO_MATCH : Nat := 0
def MATCH : Nat := 1
def MATCH_ALL_SUBDIRECTORIES : Nat := 1 ||| 2
def MATCH_BUT_NO_SUBDIRECTORIES : Nat := 1 ||| 4
def NO_MATCH_NO_SUBDIRECTORIES : Nat := 4

/-- A compiled `Pattern`: sections, the two bound flags and the file
sub-pattern.  (The `file_filter` closure of the source is a function of
`file_pattern` and is modelled by `Pattern.filePred` below.) -/
structure Pattern where
  sections : List Section
  bound_start : Bool
  bound_end : Bool
  file_pattern : String
deriving DecidableEq, Repr

/-- The section-splitting loop of `Pattern.__init__`: accumulate a fragment
of components, flushing it into a `Section` at each `**`. -/
def buildSections : List String → List String → List Section
  | [], fragment =>
      if !fragment.isEmpty then [Section.ofStrings fragment] else []
  | element :: rest, fragment =>
      if element == "**" then
        (if !fragment.isEmpty then [Section.ofStrings fragment] else []) ++
          buildSections rest []
      else
        buildSections rest (fragment ++ [element])

/-- Propagation of the pattern's bound flags to the first / last section
(`Pattern.__init__`, final lines). -/
def applyBounds (bs be : Bool) (secs : List Section) : List Section :=
  let secs :=
    if bs && !secs.isEmpty then
      match secs with
      | [] => []
      | s :: rest => { s with bound_start := true } :: rest
    else secs
  if be && !secs.isEmpty then
    secs.dropLast ++
      (match secs.getLast? with
       | some s => [{ s with bound_end := true }]
       | none => [])
  else secs

/-- `Pattern.__init__` on a simplified element list.  All call sites (from
`Pattern.create`) pass a non-empty list, so the `headD`/`getLastD` defaults
are never observed. -/
def Pattern.ofElements (elements : List String) : Pattern :=
  let bound_start := elements.headD "" != "**"
  let fp_elems :=
    if elements.getLastD "" != "**" then
      (normcase (elements.getLastD ""), elements.dropLast)
    else
      ("*", elements)
  let file_pattern := fp_elems.1
  let elements2 := fp_elems.2
  let bound_end :=
    if !elements2.isEmpty then elements2.getLastD "" != "**" else bound_start
  let sections := applyBounds bound_start bound_end (buildSections elements2 [])
  { sections := sections, bound_start := bound_start, bound_end := bound_end,
    file_pattern := file_pattern }

/-! ### Directory matching -/

/-- The value returned by `match_recurse` when all sections have been
consumed (the `else` branch of `if sections:`). -/
def successVerdict (p : Pattern) : Nat :=
  if p.sections.length == 1 && p.bound_start && p.bound_end then
    MATCH_BUT_NO_SUBDIRECTORIES
  else if p.bound_end then
    MATCH
  else
    MATCH_ALL_SUBDIRECTORIES

/-- The `for end in section.match_iter(...)` loop of `match_recurse`.  The
source tests `if match | MatchType.MATCH:`, a bitwise OR, under Python's
nonzero-integer truthiness; `some v` is an early `return v`, `none` is
falling out of the loop. -/
def loopVerdict (f : Int → Nat) : List Int → Option Nat
  | [] => none
  | e :: es =>
      let m := f e
      if (m ||| MATCH) != 0 then some m else loopVerdict f es

/-- `match_recurse`: consume the remaining sections front to back, searching
`path_elements` from index `location`.  The argument order mirrors the
source; recursion is structural on the section list. -/
def matchRecurse (p : Pattern) (path_elements : List String) :
    Bool → List Section → Int → Nat
  | is_start, sections, location =>
    match sections with
    | sec :: rest =>
        let ends := sec.matchIter path_elements location
        match loopVerdict (fun e => matchRecurse p path_elements false rest e) ends with
        | some v => v
        | none =>
            let any_match := !ends.isEmpty
            if is_start && p.bound_start && !any_match then
              if path_elements.length ≥ sec.elements.length then
                NO_MATCH_NO_SUBDIRECTORIES
              else
                if sec.elements.length > path_elements.length &&
                    path_elements.length > 0 then
                  if !((sec.elements.getD (path_elements.length - 1)
                        (Matcher.const "")).match (path_elements.getLastD "")) then
                    NO_MATCH_NO_SUBDIRECTORIES
                  else
                    NO_MATCH
                else
                  NO_MATCH
            else
              NO_MATCH
    | [] => successVerdict p

/-- `Pattern.match_directory`. -/
def Pattern.match_directory (p : Pattern) (path_elements : List String) : Nat :=
  if !p.sections.isEmpty then
    matchRecurse p path_elements true p.sections 0
  else
    if p.bound_start then
      if path_elements.length == 0 then
        MATCH_BUT_NO_SUBDIRECTORIES
      else
        NO_MATCH_NO_SUBDIRECTORIES
    else
      MATCH_ALL_SUBDIRECTORIES

/-! ### Compilation (`Pattern.create` and `Pattern._simplify`) -/

/-- The exceptions `Pattern.create` can propagate: `PatternError` (raised
explicitly on a `..` component) and `IndexError` (raised by the
`simplified[-1]` subscript when the simplified list is empty). -/
inductive CreateError where
  | patternError
  | indexError
deriving DecidableEq, Repr

/-- Python's `str.replace('//', '/')`: one left-to-right pass replacing
non-overlapping occurrences; the replacement text is not rescanned. -/
def collapsePairs : List Char → List Char
  | [] => []
  | [c] => [c]
  | c1 :: c2 :: rest =>
      if c1 == '/' && c2 == '/' then '/' :: collapsePairs rest
      else c1 :: collapsePairs (c2 :: rest)

/-- Python's `str.replace('\\', '/')`. -/
def backslashToSlash (cs : List Char) : List Char :=
  cs.map fun c => if c == '\\' then '/' else c

/-- Python's `str.split('/')`: splitting `""` gives `[""]`, and empty runs
between separators are kept as empty strings. -/
def splitOnSlash : List Char → List Char → List String
  | [], acc => [String.mk acc.reverse]
  | c :: rest, acc =>
      if c == '/' then
        String.mk acc.reverse :: splitOnSlash rest []
      else
        splitOnSlash rest (c :: acc)

/-- The loop of `Pattern._simplify`: reject `..`, drop `.`, drop a `**`
repeated immediately after another `**`, otherwise append the
case-normalised element and remember it as `previous`. -/
def simplifyLoop : List String → Option String → List String →
    Except CreateError (List String)
  | [], _, simplified => .ok simplified
  | element :: rest, previous, simplified =>
      if element == ".." then
        .error .patternError
      else if element == "." then
        simplifyLoop rest previous simplified
      else if element == "**" && previous == some "**" then
        simplifyLoop rest previous simplified
      else
        simplifyLoop rest (some element) (simplified ++ [normcase element])

/-- `Pattern._simplify` after the loop: the trailing-slash rewrite
(`simplified[-1]` raises `IndexError` on an empty list), the leading-slash
removal and the implicit leading `**`. -/
def simplify (elements : List String) : Except CreateError (List String) := do
  let simplified ← simplifyLoop elements none []
  match simplified.getLast? with
  | none => .error .indexError
  | some last =>
      let simplified := if last == "" then simplified.dropLast ++ ["**"] else simplified
      match simplified with
      | [] => .error .indexError
      | first :: rest =>
          if first == "" then
            .ok rest
          else if first != "**" then
            .ok ("**" :: first :: rest)
          else
            .ok (first :: rest)

deriving instance DecidableEq for Except

/-- The result of `Pattern.create`: a single `Pattern`, or the two-`Pattern`
`PatternSet` produced for globs whose normalised form ends in `**` with more
than one element.  The list keeps the append order of the source
(`Pattern(elements)` first, `Pattern(elements[:-1])` second). -/
inductive CreateResult where
  | pat (p : Pattern)
  | set (ps : List Pattern)
deriving DecidableEq, Repr

/-- `Pattern.create`. -/
def Pattern.create (glob : String) : Except CreateError CreateResult := do
  let glob := String.mk (collapsePairs (backslashToSlash glob.toList))
  let elements ← simplify (splitOnSlash glob.toList [])
  if elements.length > 1 && elements.getLastD "" == "**" then
    .ok (.set [Pattern.ofElements elements, Pattern.ofElements elements.dropLast])
  else
    .ok (.pat (Pattern.ofElements elements))

/-! ### File matching -/

/-- `Pattern.all_files`: the file pattern is `*`. -/
def Pattern.all_files (p : Pattern) : Bool :=
  p.file_pattern == "*"

/-- The pointwise content of the `file_filter` closure chosen in
`Pattern.__init__`: `*` admits everything, a wildcard file pattern uses
`fnmatch.filter`, and a constant file pattern compares the case-normalised
candidate. -/
def Pattern.filePred (p : Pattern) (file : String) : Bool :=
  if p.file_pattern == "*" then
    true
  else if p.file_pattern.toList.contains '*' || p.file_pattern.toList.contains '?' then
    wildMatch p.file_pattern.toList (normcase file).toList
  else
    normcase file == p.file_pattern

/-- The `file_filter` closure applied to a list of candidates. -/
def Pattern.file_filter (p : Pattern) (files : List String) : List String :=
  files.filter fun file => p.filePred file

/-- `Pattern.match_files` on sets: move the filtered subset of *unmatched*
into *matched*.  Both sets of the source are modelled as `Finset String`;
the pair returned is (new matched, new unmatched). -/
def Pattern.match_files (p : Pattern) (matched unmatched : Finset String) :
    Finset String × Finset String :=
  let this_match := unmatched.filter fun file => p.filePred file
  (matched ∪ this_match, unmatched \ this_match)

/-! ### `PatternSet`

A Python `Pattern` object has no structural equality (`Pattern` defines no
`__eq__`), so list membership and `list.remove` compare by object identity.
The model makes identity explicit: a `PObj` is a `Pattern` together with its
object id, and `remove` compares ids. -/

structure PObj where
  oid : Nat
  pat : Pattern
deriving DecidableEq, Repr

/-- `PatternSet`: the pattern list and the lazy `_all_files` cache.  Python's
tri-state is `False` / `True` / `None`; `none` models `None` (unknown), and
`PatternSet.__init__` sets the cache to `False`. -/
structure PatternSet where
  patterns : List PObj
  all_files_cache : Option Bool
deriving DecidableEq, Repr

/-- `PatternSet.__init__`. -/
def PatternSet.init : PatternSet :=
  { patterns := [], all_files_cache := some false }

/-- `PatternSet._compute_all_files`: `any(pat.all_files() for pat in self.patterns)`. -/
def PatternSet.computeAllFiles (s : PatternSet) : Bool :=
  s.patterns.any fun q => q.pat.all_files

/-- `PatternSet.all_files`: compute and memoize on a `None` cache, else
return the cached value.  The pair returned is (result, state after the
call). -/
def PatternSet.allFiles (s : PatternSet) : Bool × PatternSet :=
  match s.all_files_cache with
  | none =>
      let v := s.computeAllFiles
      (v, { s with all_files_cache := some v })
  | some v => (v, s)

/-- `PatternSet.append`: add the pattern; a non-`None` cache is OR-updated
with the new pattern's `all_files()`. -/
def PatternSet.append (s : PatternSet) (q : PObj) : PatternSet :=
  { patterns := s.patterns ++ [q],
    all_files_cache :=
      match s.all_files_cache with
      | some v => some (v || q.pat.all_files)
      | none => none }

/-- `PatternSet.extend` with a list of patterns: bulk-append and invalidate
the cache to `None`.  (`extend` called with a single `Pattern` delegates to
`append` in the source and is modelled by `PatternSet.append`.) -/
def PatternSet.extendList (s : PatternSet) (qs : List PObj) : PatternSet :=
  { patterns := s.patterns ++ qs, all_files_cache := none }

/-- First-occurrence removal of `list.remove`, comparing by object id. -/
def removeFirst : List PObj → Nat → List PObj
  | [], _ => []
  | r :: rs, oid => if r.oid == oid then rs else r :: removeFirst rs oid

/-- `PatternSet.remove`: `list.remove` raises `ValueError` when no element
compares equal, in which case the cache invalidation on the following line
is never executed.  `.error s` carries the (unchanged) state at the moment
the exception propagates. -/
def PatternSet.remove (s : PatternSet) (q : PObj) : Except PatternSet PatternSet :=
  if s.patterns.any fun r => r.oid == q.oid then
    .ok { patterns := removeFirst s.patterns q.oid, all_files_cache := none }
  else
    .error s

/-- The loop of `PatternSet.match_files`: run each pattern's `match_files`
and stop early once *unmatched* is empty (the check happens after the
call, as in the source). -/
def psMatchFilesGo : List Pattern → Finset String → Finset String →
    Finset String × Finset String
  | [], matched, unmatched => (matched, unmatched)
  | p :: rest, matched, unmatched =>
      let mu := p.match_files matched unmatched
      if mu.2 = ∅ then mu else psMatchFilesGo rest mu.1 mu.2

/-- `PatternSet.match_files` (iterating the snapshot `self.iter()` yields). -/
def PatternSet.match_files (s : PatternSet) (matched unmatched : Finset String) :
    Finset String × Finset String :=
  psMatchFilesGo (s.patterns.map fun q => q.pat) matched unmatched

/-! ### The canonical form of `Section.match_iter`

`match_iter` yields `j + k` for exactly the start indices `j` in the window
determined by the bound flags whose `k` matchers match the paired path
elements.  The lemmas below establish this characterisation for the generic
implementation, for the single-element fast path, and for the dispatching
`Section.matchIter`. -/

/-- The pairwise test of the `match_iter` contract: every matcher of the
section matches its paired element of `path_elements[j : j + length]`. -/
def sectionMatchesAt (s : Section) (pe : List String) (j : Nat) : Bool :=
  (s.elements.zip (pe.drop j)).all fun me => me.1.match me.2

theorem mem_intRange {a b x : Int} : x ∈ intRange a b ↔ a ≤ x ∧ x < b := by
  unfold intRange
  rw [List.mem_map]
  constructor
  · rintro ⟨i, hi, rfl⟩
    rw [List.mem_range] at hi
    omega
  · rintro ⟨h1, h2⟩
    refine ⟨(x - a).toNat, ?_, ?_⟩
    · rw [List.mem_range]
      omega
    · omega

theorem pairwise_intRange {a b : Int} : (intRange a b).Pairwise (· < ·) :=
  List.Pairwise.map _ (fun _ _ h => by omega) (List.pairwise_lt_range _)

/-- The index loop of `_match_iter_generic` agrees with the zip-based
pairwise test whenever the window fits inside `path_elements`. -/
theorem matchersAt_eq_zip (ms : List Matcher) (pe : List String) (j : Nat)
    (h : j + ms.length ≤ pe.length) :
    matchersAt ms pe (j : Int) =
      (ms.zip (pe.drop j)).all fun me => me.1.match me.2 := by
  induction ms generalizing j with
  | nil => simp [matchersAt]
  | cons m ms ih =>
      have hj : j < pe.length := by
        simp only [List.length_cons] at h
        omega
      rw [List.drop_eq_getElem_cons hj]
      simp only [matchersAt, List.zip_cons_cons, List.all_cons]
      have h1 : pe.getD ((j : Int)).toNat "" = pe[j] := by
        rw [Int.toNat_natCast]
        exact List.getD_eq_getElem pe "" hj
      have h2 : (j : Int) + 1 = ((j + 1 : Nat) : Int) := by push_cast; ring
      rw [h1, h2, ih (j + 1) (by simp only [List.length_cons] at h; omega)]

/-- The index loop of `match_iter` agrees with `sectionMatchesAt`. -/
theorem matchersAt_eq_section (s : Section) (pe : List String) (j : Nat)
    (h : j + s.elements.length ≤ pe.length) :
    matchersAt s.elements pe (j : Int) = sectionMatchesAt s pe j :=
  matchersAt_eq_zip s.elements pe j h

/-- Membership in the candidate loop shared by both `match_iter`
implementations. -/
theorem mem_iterCore {s : Section} {pe : List String} {st e : Int} {x : Int} :
    (x ∈ (intRange st e).filterMap fun index =>
        if matchersAt s.elements pe index then
          some (index + (s.elements.length : Int))
        else none) ↔
      ∃ i : Int, st ≤ i ∧ i < e ∧ matchersAt s.elements pe i = true ∧
        x = i + (s.elements.length : Int) := by
  simp only [List.mem_filterMap, mem_intRange]
  constructor
  · rintro ⟨i, ⟨h1, h2⟩, hm⟩
    split at hm
    · rename_i ht
      simp only [Option.some.injEq] at hm
      exact ⟨i, h1, h2, ht, hm.symm⟩
    · exact absurd hm (by simp)
  · rintro ⟨i, h1, h2, ht, rfl⟩
    exact ⟨i, ⟨h1, h2⟩, by rw [if_pos ht]⟩

/-- Canonical membership for `_match_iter_generic`. -/
theorem mem_matchIterGeneric {s : Section} {pe : List String} {sa : Int}
    (hsa : 0 ≤ sa) {x : Int} :
    x ∈ matchIterGeneric s pe sa ↔
      ∃ j : Nat, sa ≤ (j : Int) ∧ j + s.elements.length ≤ pe.length ∧
        (s.bound_start = true → j = 0) ∧
        (s.bound_end = true → j + s.elements.length = pe.length) ∧
        sectionMatchesAt s pe j = true ∧ x = (j : Int) + s.elements.length := by
  rcases hbs : s.bound_start <;> rcases hbe : s.bound_end
  case false.false =>
    simp only [matchIterGeneric, hbs, hbe, Bool.false_eq_true, if_false,
      false_implies, true_and]
    split
    · rename_i hg
      simp only [Bool.or_eq_true, decide_eq_true_eq] at hg
      simp only [List.not_mem_nil, false_iff, not_exists, not_and]
      intro j hj1 hj2
      omega
    · rename_i hg
      simp only [Bool.or_eq_true, decide_eq_true_eq, not_or] at hg
      rw [mem_iterCore]
      constructor
      · rintro ⟨i, h1, h2, hm, rfl⟩
        have h0 : 0 ≤ i := le_trans hsa h1
        have hle : i.toNat + s.elements.length ≤ pe.length := by omega
        refine ⟨i.toNat, by omega, hle, ?_, by omega⟩
        rw [← matchersAt_eq_section s pe i.toNat hle]
        have : ((i.toNat : Nat) : Int) = i := by omega
        rw [this]
        exact hm
      · rintro ⟨j, hj1, hj2, hj3, rfl⟩
        exact ⟨(j : Int), hj1, by omega,
          by rw [matchersAt_eq_section s pe j hj2]; exact hj3, rfl⟩
  case false.true =>
    simp only [matchIterGeneric, hbs, hbe, Bool.false_eq_true, if_false, if_true,
      false_implies, true_and, true_implies]
    split
    · rename_i hg
      simp only [Bool.or_eq_true, decide_eq_true_eq] at hg
      simp only [List.not_mem_nil, false_iff, not_exists, not_and]
      intro j hj1 hj2 hj3
      omega
    · rename_i hg
      simp only [Bool.or_eq_true, decide_eq_true_eq, not_or] at hg
      rw [mem_iterCore]
      constructor
      · rintro ⟨i, h1, h2, hm, rfl⟩
        have h0 : 0 ≤ i := by omega
        have hle : i.toNat + s.elements.length ≤ pe.length := by omega
        refine ⟨i.toNat, by omega, hle, by omega, ?_, by omega⟩
        rw [← matchersAt_eq_section s pe i.toNat hle]
        have : ((i.toNat : Nat) : Int) = i := by omega
        rw [this]
        exact hm
      · rintro ⟨j, hj1, hj2, hj3, hj4, rfl⟩
        exact ⟨(j : Int), by omega, by omega,
          by rw [matchersAt_eq_section s pe j hj2]; exact hj4, rfl⟩
  case true.false =>
    simp only [matchIterGeneric, hbs, hbe, Bool.false_eq_true, if_false, if_true,
      false_implies, true_and, true_implies]
    split
    · rename_i hg
      simp only [Bool.or_eq_true, decide_eq_true_eq] at hg
      simp only [List.not_mem_nil, false_iff, not_exists, not_and]
      intro j hj1 hj2 hj3
      omega
    · rename_i hg
      simp only [Bool.or_eq_true, decide_eq_true_eq, not_or] at hg
      rw [mem_iterCore]
      constructor
      · rintro ⟨i, h1, h2, hm, rfl⟩
        have h0 : 0 ≤ i := le_trans hsa h1
        have hi0 : i = 0 := by omega
        have hle : i.toNat + s.elements.length ≤ pe.length := by omega
        refine ⟨i.toNat, by omega, hle, by omega, ?_, by omega⟩
        rw [← matchersAt_eq_section s pe i.toNat hle]
        have : ((i.toNat : Nat) : Int) = i := by omega
        rw [this]
        exact hm
      · rintro ⟨j, hj1, hj2, hj3, hj4, rfl⟩
        exact ⟨(j : Int), by omega, by omega,
          by rw [matchersAt_eq_section s pe j hj2]; exact hj4, rfl⟩
  case true.true =>
    simp only [matchIterGeneric, hbs, hbe, if_true, true_implies, true_and]
    split
    · rename_i hg
      simp only [Bool.or_eq_true, decide_eq_true_eq] at hg
      simp only [List.not_mem_nil, false_iff, not_exists, not_and]
      intro j hj1 hj2 hj3 hj4
      omega
    · rename_i hg
      simp only [Bool.or_eq_true, decide_eq_true_eq, not_or] at hg
      rw [mem_iterCore]
      constructor
      · rintro ⟨i, h1, h2, hm, rfl⟩
        have h0 : 0 ≤ i := by omega
        have hle : i.toNat + s.elements.length ≤ pe.length := by omega
        refine ⟨i.toNat, by omega, hle, by omega, by omega, ?_, by omega⟩
        rw [← matchersAt_eq_section s pe i.toNat hle]
        have : ((i.toNat : Nat) : Int) = i := by omega
        rw [this]
        exact hm
      · rintro ⟨j, hj1, hj2, hj3, hj4, hj5, rfl⟩
        exact ⟨(j : Int), by omega, by omega,
          by rw [matchersAt_eq_section s pe j hj2]; exact hj5, rfl⟩

/-- The candidate loop of the single-element fast path coincides with the
shared candidate loop once the section is known to hold one matcher. -/
theorem singleBody_eq_core {s : Section} {pe : List String}
    (hk : s.elements.length = 1) :
    (fun (index : Int) =>
        if (s.elements.getD 0 (Matcher.const "")).match (pe.getD index.toNat "") then
          some (index + 1)
        else none) =
      (fun (index : Int) =>
        if matchersAt s.elements pe index then
          some (index + (s.elements.length : Int))
        else none) := by
  obtain ⟨m, hm⟩ : ∃ m, s.elements = [m] := by
    cases he : s.elements with
    | nil => rw [he] at hk; simp at hk
    | cons m rest =>
        rw [he] at hk
        simp only [List.length_cons, Nat.add_left_eq_self, List.length_eq_zero] at hk
        exact ⟨m, by rw [hk]⟩
  funext index
  rw [hm]
  simp [matchersAt]

/-- Canonical membership for `_match_iter_single`. -/
theorem mem_matchIterSingle {s : Section} {pe : List String} {sa : Int}
    (hk : s.elements.length = 1) (hsa : 0 ≤ sa) {x : Int} :
    x ∈ matchIterSingle s pe sa ↔
      ∃ j : Nat, sa ≤ (j : Int) ∧ j + s.elements.length ≤ pe.length ∧
        (s.bound_start = true → j = 0) ∧
        (s.bound_end = true → j + s.elements.length = pe.length) ∧
        sectionMatchesAt s pe j = true ∧ x = (j : Int) + s.elements.length := by
  have hbody := @singleBody_eq_core s pe hk
  have hone : (s.elements.length : Int) = 1 := by rw [hk]; rfl
  rcases hbs : s.bound_start <;> rcases hbe : s.bound_end <;>
    simp only [matchIterSingle, hbs, hbe, Bool.false_eq_true, if_false, if_true,
      Bool.false_and, Bool.true_and, Bool.not_false, Bool.not_true, Bool.true_and,
      Bool.false_and, false_implies, true_implies, true_and, hbody]
  case false.false =>
    split
    · rename_i hL
      simp only [beq_iff_eq] at hL
      simp only [List.not_mem_nil, false_iff, not_exists, not_and]
      intro j hj1 hj2
      omega
    · rename_i hL
      simp only [beq_iff_eq] at hL
      split
      · rename_i hg
        simp only [decide_eq_true_eq] at hg
        simp only [List.not_mem_nil, false_iff, not_exists, not_and]
        intro j hj1 hj2
        omega
      · rename_i hg
        simp only [decide_eq_true_eq, not_lt] at hg
        rw [mem_iterCore]
        constructor
        · rintro ⟨i, h1, h2, hm, rfl⟩
          have h0 : 0 ≤ i := le_trans hsa h1
          have hle : i.toNat + s.elements.length ≤ pe.length := by omega
          refine ⟨i.toNat, by omega, hle, ?_, by omega⟩
          rw [← matchersAt_eq_section s pe i.toNat hle]
          have : ((i.toNat : Nat) : Int) = i := by omega
          rw [this]
          exact hm
        · rintro ⟨j, hj1, hj2, hj3, rfl⟩
          exact ⟨(j : Int), hj1, by omega,
            by rw [matchersAt_eq_section s pe j hj2]; exact hj3, rfl⟩
  case false.true =>
    split
    · rename_i hL
      simp only [beq_iff_eq] at hL
      simp only [List.not_mem_nil, false_iff, not_exists, not_and]
      intro j hj1 hj2
      omega
    · rename_i hL
      simp only [beq_iff_eq] at hL
      split
      · rename_i hg
        simp only [decide_eq_true_eq] at hg
        simp only [List.not_mem_nil, false_iff, not_exists, not_and]
        intro j hj1 hj2 hj3
        omega
      · rename_i hg
        simp only [decide_eq_true_eq, not_lt] at hg
        split
        · rename_i hg2
          simp only [decide_eq_true_eq] at hg2
          omega
        · rename_i hg2
          simp only [decide_eq_true_eq, not_lt] at hg2
          rw [mem_iterCore]
          constructor
          · rintro ⟨i, h1, h2, hm, rfl⟩
            have h0 : 0 ≤ i := by omega
            have hle : i.toNat + s.elements.length ≤ pe.length := by omega
            refine ⟨i.toNat, by omega, hle, by omega, ?_, by omega⟩
            rw [← matchersAt_eq_section s pe i.toNat hle]
            have : ((i.toNat : Nat) : Int) = i := by omega
            rw [this]
            exact hm
          · rintro ⟨j, hj1, hj2, hj3, hj4, rfl⟩
            exact ⟨(j : Int), by omega, by omega,
              by rw [matchersAt_eq_section s pe j hj2]; exact hj4, rfl⟩
  case true.false =>
    split
    · rename_i hL
      simp only [beq_iff_eq] at hL
      simp only [List.not_mem_nil, false_iff, not_exists, not_and]
      intro j hj1 hj2
      omega
    · rename_i hL
      simp only [beq_iff_eq] at hL
      rw [mem_iterCore]
      constructor
      · rintro ⟨i, h1, h2, hm, rfl⟩
        have h0 : 0 ≤ i := le_trans hsa h1
        have hle : i.toNat + s.elements.length ≤ pe.length := by omega
        refine ⟨i.toNat, by omega, hle, by omega, ?_, by omega⟩
        rw [← matchersAt_eq_section s pe i.toNat hle]
        have : ((i.toNat : Nat) : Int) = i := by omega
        rw [this]
        exact hm
      · rintro ⟨j, hj1, hj2, hj3, hj4, rfl⟩
        exact ⟨(j : Int), by omega, by omega,
          by rw [matchersAt_eq_section s pe j hj2]; exact hj4, rfl⟩
  case true.true =>
    split
    · rename_i hL
      simp only [beq_iff_eq] at hL
      simp only [List.not_mem_nil, false_iff, not_exists, not_and]
      intro j hj1 hj2
      omega
    · rename_i hL
      simp only [beq_iff_eq] at hL
      split
      · rename_i hg
        simp only [decide_eq_true_eq] at hg
        simp only [List.not_mem_nil, false_iff, not_exists, not_and]
        intro j hj1 hj2 hj3 hj4
        omega
      · rename_i hg
        simp only [decide_eq_true_eq, not_lt] at hg
        rw [mem_iterCore]
        constructor
        · rintro ⟨i, h1, h2, hm, rfl⟩
          have h0 : 0 ≤ i := by omega
          have hle : i.toNat + s.elements.length ≤ pe.length := by omega
          refine ⟨i.toNat, by omega, hle, by omega, by omega, ?_, by omega⟩
          rw [← matchersAt_eq_section s pe i.toNat hle]
          have : ((i.toNat : Nat) : Int) = i := by omega
          rw [this]
          exact hm
        · rintro ⟨j, hj1, hj2, hj3, hj4, hj5, rfl⟩
          exact ⟨(j : Int), by omega, by omega,
            by rw [matchersAt_eq_section s pe j hj2]; exact hj5, rfl⟩

/-- The candidate loop preserves strict ascending order. -/
theorem pairwise_iterCore {s : Section} {pe : List String} {st e : Int} :
    ((intRange st e).filterMap fun index =>
        if matchersAt s.elements pe index then
          some (index + (s.elements.length : Int))
        else none).Pairwise (· < ·) := by
  refine List.Pairwise.filterMap _ ?_ pairwise_intRange
  intro a a' hlt b hb b' hb'
  split at hb
  · simp only [Option.mem_def, Option.some.injEq] at hb
    split at hb'
    · simp only [Option.mem_def, Option.some.injEq] at hb'
      omega
    · simp at hb'
  · simp at hb

/-- `_match_iter_generic` yields in strictly ascending order. -/
theorem pairwise_matchIterGeneric {s : Section} {pe : List String} {sa : Int} :
    (matchIterGeneric s pe sa).Pairwise (· < ·) := by
  simp only [matchIterGeneric]
  repeat' split
  all_goals first
    | exact List.Pairwise.nil
    | exact pairwise_iterCore

/-- `_match_iter_single` yields in strictly ascending order. -/
theorem pairwise_matchIterSingle {s : Section} {pe : List String} {sa : Int}
    (hk : s.elements.length = 1) :
    (matchIterSingle s pe sa).Pairwise (· < ·) := by
  have hbody := @singleBody_eq_core s pe hk
  simp only [matchIterSingle]
  repeat' split
  all_goals first
    | exact List.Pairwise.nil
    | (rw [hbody]; exact pairwise_iterCore)

/-- Canonical membership for the dispatching `Section.match_iter`. -/
theorem mem_sectionMatchIter {s : Section} {pe : List String} {sa : Int}
    (hsa : 0 ≤ sa) {x : Int} :
    x ∈ s.matchIter pe sa ↔
      ∃ j : Nat, sa ≤ (j : Int) ∧ j + s.elements.length ≤ pe.length ∧
        (s.bound_start = true → j = 0) ∧
        (s.bound_end = true → j + s.elements.length = pe.length) ∧
        sectionMatchesAt s pe j = true ∧ x = (j : Int) + s.elements.length := by
  unfold Section.matchIter
  split
  · rename_i hk
    simp only [beq_iff_eq] at hk
    exact mem_matchIterSingle hk hsa
  · exact mem_matchIterGeneric hsa

/-- `Section.match_iter` yields in strictly ascending order. -/
theorem pairwise_sectionMatchIter {s : Section} {pe : List String} {sa : Int} :
    (s.matchIter pe sa).Pairwise (· < ·) := by
  unfold Section.matchIter
  split
  · rename_i hk
    simp only [beq_iff_eq] at hk
    exact pairwise_matchIterSingle hk
  · exact pairwise_matchIterGeneric

/-- For single-matcher sections the fast path and the generic implementation
produce the same list. -/
theorem matchIterSingle_eq_generic {s : Section} {pe : List String} {sa : Int}
    (hk : s.elements.length = 1) (hsa : 0 ≤ sa) :
    matchIterSingle s pe sa = matchIterGeneric s pe sa := by
  have h1 := @pairwise_matchIterSingle s pe sa hk
  have h2 := @pairwise_matchIterGeneric s pe sa
  refine List.eq_of_perm_of_sorted
    ((List.perm_ext_iff_of_nodup (h1.imp ne_of_lt) (h2.imp ne_of_lt)).mpr ?_)
    (h1.imp le_of_lt) (h2.imp le_of_lt)
  intro a
  rw [mem_matchIterSingle hk hsa, mem_matchIterGeneric hsa]

/-! ### The recursive search of `match_directory` -/

/-- The witness semantics of the section search: some choice of end indices
yielded by the successive sections' `match_iter` consumes all sections. -/
def existsMatch (pe : List String) : List Section → Int → Bool
  | [], _ => true
  | s :: rest, loc => (s.matchIter pe loc).any fun e => existsMatch pe rest e

/-- The fallback verdict computed by the root call of `match_recurse` when
the first section yields nothing (the `is_start and self.bound_start and not
any_match` block). -/
def topFallback (p : Pattern) (pe : List String) (sec : Section) : Nat :=
  if p.bound_start then
    if pe.length ≥ sec.elements.length then
      NO_MATCH_NO_SUBDIRECTORIES
    else
      if sec.elements.length > pe.length && pe.length > 0 then
        if !((sec.elements.getD (pe.length - 1) (Matcher.const "")).match
            (pe.getLastD "")) then
          NO_MATCH_NO_SUBDIRECTORIES
        else
          NO_MATCH
      else
        NO_MATCH
  else
    NO_MATCH

theorem or_one_ne_zero (n : Nat) : n ||| 1 ≠ 0 := by
  intro h
  have hbit : (n ||| 1).testBit 0 = false := by rw [h]; simp
  simp [Nat.testBit_or] at hbit

/-- Every yielded end index is at least the start location (hence
non-negative for non-negative locations). -/
theorem sectionMatchIter_le {s : Section} {pe : List String} {loc : Int}
    (hloc : 0 ≤ loc) {x : Int} (hx : x ∈ s.matchIter pe loc) : loc ≤ x := by
  rcases (mem_sectionMatchIter hloc).mp hx with ⟨j, hj1, _, _, _, _, rfl⟩
  omega

/-- `match_iter` is antitone in `start_at`: starting earlier yields a
superset. -/
theorem sectionMatchIter_antitone {s : Section} {pe : List String}
    {loc loc' : Int} (h0 : 0 ≤ loc) (hle : loc ≤ loc') {x : Int}
    (hx : x ∈ s.matchIter pe loc') : x ∈ s.matchIter pe loc := by
  rcases (mem_sectionMatchIter (le_trans h0 hle)).mp hx with
    ⟨j, hj1, hj2, hj3, hj4, hj5, rfl⟩
  exact (mem_sectionMatchIter h0).mpr ⟨j, by omega, hj2, hj3, hj4, hj5, rfl⟩

/-- `existsMatch` is antitone in the start location. -/
theorem existsMatch_mono (pe : List String) (secs : List Section)
    {loc loc' : Int} (h0 : 0 ≤ loc) (hle : loc ≤ loc')
    (h : existsMatch pe secs loc' = true) : existsMatch pe secs loc = true := by
  cases secs with
  | nil => simp [existsMatch]
  | cons s rest =>
      simp only [existsMatch, List.any_eq_true] at h ⊢
      rcases h with ⟨x, hx, hrest⟩
      exact ⟨x, sectionMatchIter_antitone h0 hle hx, hrest⟩

/-- The head of `match_iter` is its minimum. -/
theorem head_min_of_matchIter {s : Section} {pe : List String} {loc : Int}
    {e : Int} {es : List Int} (hE : s.matchIter pe loc = e :: es)
    {x : Int} (hx : x ∈ s.matchIter pe loc) : e ≤ x := by
  have hp := @pairwise_sectionMatchIter s pe loc
  rw [hE] at hp hx
  rcases List.mem_cons.mp hx with rfl | hx'
  · exact le_refl x
  · exact le_of_lt (List.rel_of_pairwise_cons hp hx')

/-- The loop of the source returns the verdict of the very first yielded
branch: `match | MatchType.MATCH` is always truthy. -/
theorem loopVerdict_eq (f : Int → Nat) :
    ∀ l : List Int, loopVerdict f l =
      match l with
      | [] => none
      | e :: _ => some (f e) := by
  intro l
  cases l with
  | nil => rfl
  | cons e es =>
      simp only [loopVerdict]
      rw [if_pos]
      simp only [ne_eq, bne_iff_ne]
      exact or_one_ne_zero (f e)

/-- The non-root levels of `match_recurse` return the success verdict
exactly when a chain of yielded end indices consumes all remaining
sections, and `NO_MATCH` otherwise. -/
theorem matchRecurse_notStart (p : Pattern) (pe : List String) :
    ∀ (secs : List Section) (loc : Int), 0 ≤ loc →
      matchRecurse p pe false secs loc =
        if existsMatch pe secs loc then successVerdict p else NO_MATCH := by
  intro secs
  induction secs with
  | nil =>
      intro loc _
      simp [matchRecurse, existsMatch]
  | cons s rest ih =>
      intro loc hloc
      rw [matchRecurse]
      simp only
      rw [loopVerdict_eq]
      cases hE : s.matchIter pe loc with
      | nil =>
          simp only [existsMatch, hE, List.any_nil, List.isEmpty_nil,
            Bool.not_true, Bool.and_false, Bool.false_and, if_false,
            Bool.false_eq_true]
      | cons e es =>
          simp only
          have he0 : 0 ≤ e := by
            have := sectionMatchIter_le hloc (x := e) (by rw [hE]; exact List.mem_cons_self e es)
            omega
          rw [ih e he0]
          simp only [existsMatch, hE, List.any_cons, List.any_eq_true]
          by_cases hex : existsMatch pe rest e = true
          · simp [hex]
          · simp only [hex, if_false, Bool.false_or]
            by_cases hany : ∃ x ∈ es, existsMatch pe rest x = true
            · exfalso
              rcases hany with ⟨x, hx, hx2⟩
              have hxm : x ∈ s.matchIter pe loc := by
                rw [hE]; exact List.mem_cons_of_mem e hx
              have hle := head_min_of_matchIter hE hxm
              exact hex (existsMatch_mono pe rest he0 hle hx2)
            · simp only [List.any_eq_true]
              rw [if_neg hany]
              simp

/-- The root level of `match_recurse`: the same success condition, with the
stronger fallback verdict when the anchored first section yielded nothing. -/
theorem matchRecurse_start (p : Pattern) (pe : List String) (s : Section)
    (rest : List Section) :
    matchRecurse p pe true (s :: rest) 0 =
      if (s.matchIter pe 0).isEmpty then
        topFallback p pe s
      else
        if existsMatch pe (s :: rest) 0 then successVerdict p else NO_MATCH := by
  rw [matchRecurse]
  simp only
  rw [loopVerdict_eq]
  cases hE : s.matchIter pe 0 with
  | nil =>
      simp only [List.isEmpty_nil, Bool.not_true, Bool.and_false, if_true,
        Bool.true_and, Bool.not_false, topFallback]
      by_cases hbs : p.bound_start = true
      · simp [hbs]
      · simp only [Bool.not_eq_true] at hbs
        simp [hbs]
  | cons e es =>
      simp only [List.isEmpty_cons, if_false, Bool.false_eq_true]
      have he0 : 0 ≤ e := by
        have := @sectionMatchIter_le s pe 0 (by omega) e
          (by rw [hE]; exact List.mem_cons_self e es)
        omega
      rw [matchRecurse_notStart p pe rest e he0]
      simp only [existsMatch, hE, List.any_cons, List.any_eq_true]
      by_cases hex : existsMatch pe rest e = true
      · simp [hex]
      · simp only [hex, if_false, Bool.false_or]
        by_cases hany : ∃ x ∈ es, existsMatch pe rest x = true
        · exfalso
          rcases hany with ⟨x, hx, hx2⟩
          have hxm : x ∈ s.matchIter pe 0 := by
            rw [hE]; exact List.mem_cons_of_mem e hx
          have hle := head_min_of_matchIter hE hxm
          exact hex (existsMatch_mono pe rest he0 hle hx2)
        · simp only [List.any_eq_true]
          rw [if_neg hany]
          simp

/-! ### The spec-side search: first verdict whose MATCH bit is set

The specification describes `match_recurse`'s loop as propagating the first
recursion verdict whose MATCH bit is set, with MATCH-less verdicts not
terminating the search.  `specLoopVerdict` / `specMatchRecurse` are that
search, differing from the source's `loopVerdict` / `matchRecurse` only in
the loop test (`match & MATCH` in place of `match | MATCH`). -/

def specLoopVerdict (f : Int → Nat) : List Int → Option Nat
  | [] => none
  | e :: es =>
      let m := f e
      if (m &&& MATCH) != 0 then some m else specLoopVerdict f es

def specMatchRecurse (p : Pattern) (path_elements : List String) :
    Bool → List Section → Int → Nat
  | is_start, sections, location =>
    match sections with
    | sec :: rest =>
        let ends := sec.matchIter path_elements location
        match specLoopVerdict (fun e => specMatchRecurse p path_elements false rest e) ends with
        | some v => v
        | none =>
            let any_match := !ends.isEmpty
            if is_start && p.bound_start && !any_match then
              if path_elements.length ≥ sec.elements.length then
                NO_MATCH_NO_SUBDIRECTORIES
              else
                if sec.elements.length > path_elements.length &&
                    path_elements.length > 0 then
                  if !((sec.elements.getD (path_elements.length - 1)
                        (Matcher.const "")).match (path_elements.getLastD "")) then
                    NO_MATCH_NO_SUBDIRECTORIES
                  else
                    NO_MATCH
                else
                  NO_MATCH
            else
              NO_MATCH
    | [] => successVerdict p

/-- The spec-side `match_directory`. -/
def Pattern.specMatchDirectory (p : Pattern) (path_elements : List String) : Nat :=
  if !p.sections.isEmpty then
    specMatchRecurse p path_elements true p.sections 0
  else
    if p.bound_start then
      if path_elements.length == 0 then
        MATCH_BUT_NO_SUBDIRECTORIES
      else
        NO_MATCH_NO_SUBDIRECTORIES
    else
      MATCH_ALL_SUBDIRECTORIES

theorem successVerdict_match_bit (p : Pattern) : successVerdict p &&& 1 ≠ 0 := by
  unfold successVerdict MATCH_BUT_NO_SUBDIRECTORIES MATCH MATCH_ALL_SUBDIRECTORIES
  repeat' split
  all_goals decide

theorem specMatchRecurse_notStart (p : Pattern) (pe : List String) :
    ∀ (secs : List Section) (loc : Int), 0 ≤ loc →
      specMatchRecurse p pe false secs loc =
        if existsMatch pe secs loc then successVerdict p else NO_MATCH := by
  intro secs
  induction secs with
  | nil =>
      intro loc _
      simp [specMatchRecurse, existsMatch]
  | cons s rest ih =>
      intro loc hloc
      rw [specMatchRecurse]
      simp only
      have hloop : ∀ l : List Int, (∀ x ∈ l, 0 ≤ x) →
          specLoopVerdict (fun e => specMatchRecurse p pe false rest e) l =
            if l.any (fun e => existsMatch pe rest e) then some (successVerdict p)
            else none := by
        intro l
        induction l with
        | nil => intro _; rfl
        | cons e es ihl =>
            intro hpos
            have he0 : 0 ≤ e := hpos e (List.mem_cons_self e es)
            simp only [specLoopVerdict]
            rw [ih e he0]
            by_cases hex : existsMatch pe rest e = true
            · rw [if_pos hex, if_pos]
              · simp [hex]
              · simp only [ne_eq, bne_iff_ne]
                exact successVerdict_match_bit p
            · rw [if_neg hex]
              rw [if_neg (by simp [NO_MATCH])]
              rw [ihl (fun x hx => hpos x (List.mem_cons_of_mem e hx))]
              simp only [List.any_cons]
              have h5 : existsMatch pe rest e = false := by
                simpa using hex
              simp [h5]
      rw [hloop _ (fun x hx => by
        have := sectionMatchIter_le hloc (x := x) hx
        omega)]
      cases hE : s.matchIter pe loc with
      | nil =>
          simp [existsMatch, hE]
      | cons e es =>
          simp only [existsMatch, hE]
          by_cases hany : (e :: es).any (fun x => existsMatch pe rest x) = true
          · simp [hany]
          · simp only [hany, if_false, Bool.false_eq_true]
            simp only [Bool.not_eq_true] at hany
            simp [hany]

theorem specMatchRecurse_start (p : Pattern) (pe : List String) (s : Section)
    (rest : List Section) :
    specMatchRecurse p pe true (s :: rest) 0 =
      if (s.matchIter pe 0).isEmpty then
        topFallback p pe s
      else
        if existsMatch pe (s :: rest) 0 then successVerdict p else NO_MATCH := by
  rw [specMatchRecurse]
  simp only
  have hloop : ∀ l : List Int, (∀ x ∈ l, 0 ≤ x) →
      specLoopVerdict (fun e => specMatchRecurse p pe false rest e) l =
        if l.any (fun e => existsMatch pe rest e) then some (successVerdict p)
        else none := by
    intro l
    induction l with
    | nil => intro _; rfl
    | cons e es ihl =>
        intro hpos
        have he0 : 0 ≤ e := hpos e (List.mem_cons_self e es)
        simp only [specLoopVerdict]
        rw [specMatchRecurse_notStart p pe rest e he0]
        by_cases hex : existsMatch pe rest e = true
        · rw [if_pos hex, if_pos]
          · simp [hex]
          · simp only [ne_eq, bne_iff_ne]
            exact successVerdict_match_bit p
        · rw [if_neg hex]
          rw [if_neg (by simp [NO_MATCH])]
          rw [ihl (fun x hx => hpos x (List.mem_cons_of_mem e hx))]
          simp only [List.any_cons]
          have h5 : existsMatch pe rest e = false := by simpa using hex
          simp [h5]
  rw [hloop _ (fun x hx => by
    have := @sectionMatchIter_le s pe 0 (by omega) x hx
    omega)]
  cases hE : s.matchIter pe 0 with
  | nil =>
      simp only [List.any_nil, if_false, List.isEmpty_nil, if_true, topFallback,
        Bool.false_eq_true]
      simp only [List.isEmpty_nil, Bool.not_true, Bool.and_false, Bool.true_and,
        Bool.not_false]
      by_cases hbs : p.bound_start = true
      · simp [hbs, topFallback]
      · simp only [Bool.not_eq_true] at hbs
        simp [hbs, topFallback]
  | cons e es =>
      simp only [List.isEmpty_cons, if_false, existsMatch, hE, Bool.false_eq_true]
      by_cases hany : (e :: es).any (fun x => existsMatch pe rest x) = true
      · simp [hany]
      · simp only [hany, if_false, Bool.false_eq_true]
        simp only [Bool.not_eq_true] at hany
        simp [hany]

/-- Both searches agree on every input: the OR-test of the source always
returns the first branch, whose verdict coincides with the first
MATCH-bearing branch by monotonicity of `match_iter` in `start_at`. -/
theorem matchDirectory_eq_spec (p : Pattern) (pe : List String) :
    p.match_directory pe = p.specMatchDirectory pe := by
  unfold Pattern.match_directory Pattern.specMatchDirectory
  cases hs : p.sections with
  | nil => rfl
  | cons s rest =>
      simp only [List.isEmpty_cons, Bool.not_false, if_true]
      rw [matchRecurse_start, specMatchRecurse_start]

/-- The fallback of the root call never carries the MATCH bit. -/
theorem topFallback_no_match_bit (p : Pattern) (pe : List String) (s : Section) :
    topFallback p pe s &&& 1 = 0 := by
  unfold topFallback NO_MATCH NO_MATCH_NO_SUBDIRECTORIES
  repeat' split
  all_goals decide

/-- The fallback of the root call never carries the ALL_SUBDIRECTORIES bit. -/
theorem topFallback_no_all_bit (p : Pattern) (pe : List String) (s : Section) :
    topFallback p pe s &&& 2 = 0 := by
  unfold topFallback NO_MATCH NO_MATCH_NO_SUBDIRECTORIES
  repeat' split
  all_goals decide

/-- The MATCH bit of `match_directory` over non-empty sections is exactly the
existence of a consuming chain of `match_iter` end indices. -/
theorem matchDirectory_match_bit (p : Pattern) (pe : List String)
    (hne : p.sections ≠ []) :
    (p.match_directory pe &&& BIT_MATCH ≠ 0 ↔ existsMatch pe p.sections 0 = true) := by
  cases hs : p.sections with
  | nil => exact absurd hs hne
  | cons s rest =>
      unfold Pattern.match_directory
      rw [hs]
      simp only [List.isEmpty_cons, Bool.not_false, if_true]
      rw [show matchRecurse p pe true (s :: rest) 0 =
            (if (s.matchIter pe 0).isEmpty then topFallback p pe s
             else if existsMatch pe (s :: rest) 0 then successVerdict p
             else NO_MATCH) from matchRecurse_start p pe s rest]
      by_cases hE : (s.matchIter pe 0).isEmpty = true
      · rw [if_pos hE]
        have h1 := topFallback_no_match_bit p pe s
        have h2 : existsMatch pe (s :: rest) 0 = false := by
          simp only [existsMatch]
          rw [List.isEmpty_iff.mp hE]
          rfl
        constructor
        · intro h
          exact absurd h1 (by unfold BIT_MATCH at h; omega)
        · intro h
          rw [h2] at h
          exact absurd h (by simp)
      · rw [if_neg hE]
        by_cases hex : existsMatch pe (s :: rest) 0 = true
        · rw [if_pos hex]
          simp only [hex, iff_true]
          unfold BIT_MATCH
          exact successVerdict_match_bit p
        · rw [if_neg hex]
          simp only [hex, iff_false]
          unfold NO_MATCH BIT_MATCH
          decide

/-- **C1**: over a compiled `Pattern` with non-empty `sections`, the verdict
of `match_directory` has the MATCH bit set exactly when some chain of end
indices yielded by the successive sections' `match_iter` consumes all the
sections; moreover the verdict returned coincides with that of the
spec-side search which propagates the first branch whose MATCH bit is set
and lets MATCH-less branches continue the scan of the remaining yielded
indices. -/
theorem c1_match_recurse_first_match (p : Pattern) (pe : List String)
    (hne : p.sections ≠ []) :
    (p.match_directory pe &&& BIT_MATCH ≠ 0 ↔ existsMatch pe p.sections 0 = true) ∧
    p.match_directory pe = p.specMatchDirectory pe :=
  ⟨matchDirectory_match_bit p pe hne, matchDirectory_eq_spec p pe⟩

theorem c1_witness :
    ((Pattern.ofElements ["src", "**"]).match_directory ["src"] &&& BIT_MATCH ≠ 0 ↔
      existsMatch ["src"] (Pattern.ofElements ["src", "**"]).sections 0 = true) ∧
    (Pattern.ofElements ["src", "**"]).match_directory ["src"] =
      (Pattern.ofElements ["src", "**"]).specMatchDirectory ["src"] :=
  c1_match_recurse_first_match (Pattern.ofElements ["src", "**"]) ["src"]
    (by decide)

/-- **C7**: `Section.match_iter` yields, in strictly ascending order,
exactly the values `j + k` for the start indices `j` with `j ≥ start_at`,
`j + k ≤ L`, `j = 0` whenever `bound_start`, `j = L - k` whenever
`bound_end`, whose matchers match pairwise; and for single-matcher sections
the fast path agrees with the generic implementation. -/
theorem c7_match_iter_contract (s : Section) (pe : List String) (start_at : Int)
    (hsa : 0 ≤ start_at) :
    (s.matchIter pe start_at).Pairwise (· < ·) ∧
    (∀ i : Int, i ∈ s.matchIter pe start_at ↔
      ∃ j : Nat, start_at ≤ (j : Int) ∧ j + s.elements.length ≤ pe.length ∧
        (s.bound_start = true → j = 0) ∧
        (s.bound_end = true → j + s.elements.length = pe.length) ∧
        sectionMatchesAt s pe j = true ∧ i = (j : Int) + s.elements.length) ∧
    (s.elements.length = 1 →
      matchIterSingle s pe start_at = matchIterGeneric s pe start_at) :=
  ⟨pairwise_sectionMatchIter, fun _ => mem_sectionMatchIter hsa,
   fun hk => matchIterSingle_eq_generic hk hsa⟩

theorem c7_witness :
    ((Section.ofStrings ["a"]).matchIter ["a", "b"] 0).Pairwise (· < ·) ∧
    (∀ i : Int, i ∈ (Section.ofStrings ["a"]).matchIter ["a", "b"] 0 ↔
      ∃ j : Nat, 0 ≤ (j : Int) ∧
        j + (Section.ofStrings ["a"]).elements.length ≤
          (["a", "b"] : List String).length ∧
        ((Section.ofStrings ["a"]).bound_start = true → j = 0) ∧
        ((Section.ofStrings ["a"]).bound_end = true →
          j + (Section.ofStrings ["a"]).elements.length =
            (["a", "b"] : List String).length) ∧
        sectionMatchesAt (Section.ofStrings ["a"]) ["a", "b"] j = true ∧
        i = (j : Int) + (Section.ofStrings ["a"]).elements.length) ∧
    ((Section.ofStrings ["a"]).elements.length = 1 →
      matchIterSingle (Section.ofStrings ["a"]) ["a", "b"] 0 =
        matchIterGeneric (Section.ofStrings ["a"]) ["a", "b"] 0) :=
  c7_match_iter_contract (Section.ofStrings ["a"]) ["a", "b"] 0 (by decide)

/-! ### Structural invariants of compiled patterns

`Pattern.__init__` propagates `bound_start` to the first section only and
`bound_end` to the last section only.  `Pattern.wfB` records this shape; it
holds of every pattern built by `Pattern.ofElements` and is the hypothesis
under which the prune/descendant laws are proved. -/

def Pattern.wfB (p : Pattern) : Bool :=
  (match p.sections.head? with
   | none => true
   | some s => s.bound_start == p.bound_start) &&
  (p.sections.tail.all fun s => s.bound_start == false) &&
  (match p.sections.getLast? with
   | none => true
   | some s => s.bound_end == p.bound_end) &&
  (p.sections.dropLast.all fun s => s.bound_end == false)

theorem wf_head_bs {p : Pattern} (hwf : p.wfB = true) {s : Section}
    {rest : List Section} (hs : p.sections = s :: rest) :
    s.bound_start = p.bound_start := by
  unfold Pattern.wfB at hwf
  rw [hs] at hwf
  simp only [List.head?_cons, Bool.and_eq_true, beq_iff_eq] at hwf
  exact hwf.1.1.1

theorem wf_single_be {p : Pattern} (hwf : p.wfB = true) {s : Section}
    (hs : p.sections = [s]) : s.bound_end = p.bound_end := by
  unfold Pattern.wfB at hwf
  rw [hs] at hwf
  simp only [List.getLast?_singleton, Bool.and_eq_true, beq_iff_eq] at hwf
  exact hwf.1.2

theorem wf_be_all {p : Pattern} (hwf : p.wfB = true)
    (hbe : p.bound_end = false) : ∀ s ∈ p.sections, s.bound_end = false := by
  intro s' hmem
  unfold Pattern.wfB at hwf
  simp only [Bool.and_eq_true, List.all_eq_true, beq_iff_eq] at hwf
  obtain ⟨⟨⟨_, _⟩, hlast⟩, hdrop⟩ := hwf
  have hne : p.sections ≠ [] := by
    intro h
    rw [h] at hmem
    exact absurd hmem (List.not_mem_nil s')
  have hsplit := List.dropLast_append_getLast hne
  rw [← hsplit] at hmem
  rcases List.mem_append.mp hmem with hd | hl
  · exact hdrop s' hd
  · have : s' = p.sections.getLast hne := by simpa using hl
    rw [this]
    have h6 := hlast
    rw [List.getLast?_eq_getLast p.sections hne] at h6
    simp only [beq_iff_eq] at h6
    rw [h6, hbe]

/-- Zipping against a long enough prefix ignores the appended tail. -/
theorem zip_append_left {α β : Type} (ms : List α) (A B : List β)
    (h : ms.length ≤ A.length) : ms.zip (A ++ B) = ms.zip A := by
  induction ms generalizing A with
  | nil => simp
  | cons m ms ih =>
      cases A with
      | nil => simp at h
      | cons a A =>
          simp only [List.cons_append, List.zip_cons_cons]
          rw [ih A (by simpa using h)]

/-- The pairwise test only inspects `path_elements[j : j + k]`, so it is
stable under appending components. -/
theorem sectionMatchesAt_append (s : Section) (pe tail : List String) (j : Nat)
    (h : j + s.elements.length ≤ pe.length) :
    sectionMatchesAt s (pe ++ tail) j = sectionMatchesAt s pe j := by
  unfold sectionMatchesAt
  rw [List.drop_append_eq_append_drop]
  rw [show j - pe.length = 0 by omega]
  simp only [List.drop_zero]
  rw [zip_append_left _ _ _ (by simp [List.length_drop]; omega)]

/-- Without any `bound_end` constraint, a consuming chain over `d` is also a
consuming chain over every extension `d ++ tail`. -/
theorem existsMatch_extend (pe tail : List String) :
    ∀ (secs : List Section), (∀ s ∈ secs, s.bound_end = false) →
      ∀ loc : Int, 0 ≤ loc → existsMatch pe secs loc = true →
        existsMatch (pe ++ tail) secs loc = true := by
  intro secs
  induction secs with
  | nil => simp [existsMatch]
  | cons s rest ih =>
      intro hbe loc hloc h
      simp only [existsMatch, List.any_eq_true] at h ⊢
      rcases h with ⟨x, hx, hrest⟩
      rcases (mem_sectionMatchIter hloc).mp hx with ⟨j, hj1, hj2, hj3, _, hj5, rfl⟩
      have hbs : s.bound_end = false := hbe s (List.mem_cons_self s rest)
      refine ⟨(j : Int) + s.elements.length, (mem_sectionMatchIter hloc).mpr
        ⟨j, hj1, by simp only [List.length_append]; omega, hj3,
          by intro hcon; rw [hbs] at hcon; exact absurd hcon (by simp),
          by rw [sectionMatchesAt_append s pe tail j hj2]; exact hj5, rfl⟩, ?_⟩
      exact ih (fun t ht => hbe t (List.mem_cons_of_mem s ht))
        ((j : Int) + s.elements.length) (by omega) hrest

/-- Inversion: the only success verdict carrying `NO_SUBDIRECTORIES` is
`MATCH_BUT_NO_SUBDIRECTORIES`, produced for single-section
bound-start/bound-end patterns. -/
theorem successVerdict_N {p : Pattern} (h : successVerdict p &&& 4 ≠ 0) :
    p.sections.length = 1 ∧ p.bound_start = true ∧ p.bound_end = true := by
  unfold successVerdict at h
  split at h
  · rename_i hc
    simp only [Bool.and_eq_true, beq_iff_eq] at hc
    exact ⟨hc.1.1, hc.1.2, hc.2⟩
  · split at h
    · exact absurd h (by unfold MATCH; decide)
    · exact absurd h (by unfold MATCH_ALL_SUBDIRECTORIES; decide)

/-- Inversion: the only success verdict carrying `ALL_SUBDIRECTORIES` is
`MATCH_ALL_SUBDIRECTORIES`, produced when the pattern is not bound at the
end. -/
theorem successVerdict_A {p : Pattern} (h : successVerdict p &&& 2 ≠ 0) :
    p.bound_end = false := by
  unfold successVerdict at h
  split at h
  · exact absurd h (by unfold MATCH_BUT_NO_SUBDIRECTORIES; decide)
  · split at h
    · exact absurd h (by unfold MATCH; decide)
    · rename_i hc
      simpa using hc

/-- Inversion of the root fallback verdict carrying `NO_SUBDIRECTORIES`. -/
theorem topFallback_N {p : Pattern} {pe : List String} {s : Section}
    (h : topFallback p pe s &&& 4 ≠ 0) :
    p.bound_start = true ∧
      (pe.length ≥ s.elements.length ∨
        (s.elements.length > pe.length ∧ pe.length > 0 ∧
          ((s.elements.getD (pe.length - 1) (Matcher.const "")).match
            (pe.getLastD "")) = false)) := by
  unfold topFallback at h
  split at h
  · rename_i hbs
    refine ⟨hbs, ?_⟩
    split at h
    · rename_i hge
      exact Or.inl hge
    · rename_i hge
      split at h
      · rename_i hcond
        simp only [decide_eq_true_eq, Bool.and_eq_true] at hcond
        split at h
        · rename_i hmis
          simp only [Bool.not_eq_true'] at hmis
          exact Or.inr ⟨hcond.1, hcond.2, hmis⟩
        · exact absurd h (by unfold NO_MATCH; decide)
      · exact absurd h (by unfold NO_MATCH; decide)
  · exact absurd h (by unfold NO_MATCH; decide)

theorem getLastD_eq_getElem {α : Type} (l : List α) (d : α) (h : 0 < l.length) :
    l.getLastD d = l[l.length - 1] := by
  rw [List.getLastD_eq_getLast?, List.getLast?_eq_getElem?,
    List.getElem?_eq_getElem (by omega)]
  rfl

/-- Extract the pair at index `i` from a successful pairwise test. -/
theorem sectionMatchesAt_elem {s : Section} {pe : List String} {j i : Nat}
    (hm : sectionMatchesAt s pe j = true) (hik : i < s.elements.length)
    (hjl : j + s.elements.length ≤ pe.length) :
    (s.elements[i]).match (pe[j + i]) = true := by
  unfold sectionMatchesAt at hm
  rw [List.all_eq_true] at hm
  have hlen : (s.elements.zip (pe.drop j)).length = s.elements.length := by
    simp [List.length_zip, List.length_drop]
    omega
  have hizip : i < (s.elements.zip (pe.drop j)).length := by omega
  have hpair := hm ((s.elements.zip (pe.drop j))[i]) (List.getElem_mem hizip)
  rw [List.getElem_zip] at hpair
  have hidrop : i < (List.drop j pe).length := by
    simp only [List.length_drop]
    omega
  have hjip : j + i < pe.length := by omega
  have hdrop : (pe.drop j)[i] = pe[j + i] := by
    rw [List.getElem_drop]
  rw [hdrop] at hpair
  exact hpair

/-- **C3**: if `match_directory d` carries the `ALL_SUBDIRECTORIES` bit,
then `match_directory (d ++ tail)` carries the MATCH bit for every tail. -/
theorem c3_descendant_completeness (p : Pattern) (hwf : p.wfB = true)
    (d tail : List String)
    (hA : p.match_directory d &&& BIT_ALL_SUBDIRECTORIES ≠ 0) :
    p.match_directory (d ++ tail) &&& BIT_MATCH ≠ 0 := by
  cases hs : p.sections with
  | nil =>
      unfold Pattern.match_directory at hA ⊢
      simp only [hs, List.isEmpty_nil, Bool.not_true, Bool.false_eq_true,
        if_false] at hA ⊢
      by_cases hbs : p.bound_start = true
      · rw [if_pos hbs] at hA
        split at hA
        · exact absurd hA
            (by unfold MATCH_BUT_NO_SUBDIRECTORIES BIT_ALL_SUBDIRECTORIES; decide)
        · exact absurd hA
            (by unfold NO_MATCH_NO_SUBDIRECTORIES BIT_ALL_SUBDIRECTORIES; decide)
      · rw [if_neg hbs] at hA ⊢
        unfold MATCH_ALL_SUBDIRECTORIES BIT_MATCH
        decide
  | cons s rest =>
      have hne : p.sections ≠ [] := by rw [hs]; simp
      unfold Pattern.match_directory at hA
      simp only [hs, List.isEmpty_cons, Bool.not_false, if_true] at hA
      rw [matchRecurse_start] at hA
      by_cases hE : (s.matchIter d 0).isEmpty = true
      · rw [if_pos hE] at hA
        have := topFallback_no_all_bit p d s
        unfold BIT_ALL_SUBDIRECTORIES at hA
        omega
      · rw [if_neg hE] at hA
        by_cases hex : existsMatch d (s :: rest) 0 = true
        · rw [if_pos hex] at hA
          have hbe : p.bound_end = false :=
            successVerdict_A (by unfold BIT_ALL_SUBDIRECTORIES at hA; exact hA)
          have hbeall := wf_be_all hwf hbe
          rw [hs] at hbeall
          have hext := existsMatch_extend d tail (s :: rest) hbeall 0 (by omega) hex
          rw [matchDirectory_match_bit p (d ++ tail) hne, hs]
          exact hext
        · rw [if_neg hex] at hA
          exact absurd hA (by unfold NO_MATCH BIT_ALL_SUBDIRECTORIES; decide)

theorem c3_witness :
    (Pattern.ofElements ["src", "**"]).match_directory
        (["src"] ++ ["a", "b"]) &&& BIT_MATCH ≠ 0 :=
  c3_descendant_completeness (Pattern.ofElements ["src", "**"]) (by decide)
    ["src"] ["a", "b"] (by decide)

/-- **C2**: if `match_directory d` carries the `NO_SUBDIRECTORIES` bit, then
no proper extension of `d` carries the MATCH bit. -/
theorem c2_prune_soundness (p : Pattern) (hwf : p.wfB = true)
    (d tail : List String) (htail : tail ≠ [])
    (hN : p.match_directory d &&& BIT_NO_SUBDIRECTORIES ≠ 0) :
    p.match_directory (d ++ tail) &&& BIT_MATCH = 0 := by
  have htl : 0 < tail.length := List.length_pos.mpr htail
  cases hs : p.sections with
  | nil =>
      unfold Pattern.match_directory at hN ⊢
      simp only [hs, List.isEmpty_nil, Bool.not_true, Bool.false_eq_true,
        if_false] at hN ⊢
      by_cases hbs : p.bound_start = true
      · rw [if_pos hbs]
        rw [if_neg (by simp only [beq_iff_eq, List.length_append]; omega)]
        unfold NO_MATCH_NO_SUBDIRECTORIES BIT_MATCH
        decide
      · rw [if_neg hbs] at hN
        exact absurd hN
          (by unfold MATCH_ALL_SUBDIRECTORIES BIT_NO_SUBDIRECTORIES; decide)
  | cons s rest =>
      have hne : p.sections ≠ [] := by rw [hs]; simp
      by_contra hcon
      have hext : existsMatch (d ++ tail) p.sections 0 = true :=
        (matchDirectory_match_bit p (d ++ tail) hne).mp hcon
      rw [hs] at hext
      simp only [existsMatch, List.any_eq_true] at hext
      rcases hext with ⟨x, hx, _⟩
      rcases (mem_sectionMatchIter (le_refl (0 : Int))).mp hx with
        ⟨j, hj1, hj2, hj3, hj4, hj5, rfl⟩
      unfold Pattern.match_directory at hN
      simp only [hs, List.isEmpty_cons, Bool.not_false, if_true] at hN
      rw [matchRecurse_start] at hN
      by_cases hE : (s.matchIter d 0).isEmpty = true
      · rw [if_pos hE] at hN
        obtain ⟨hbs, hcases⟩ :=
          @topFallback_N p d s
            (by unfold BIT_NO_SUBDIRECTORIES at hN; exact hN)
        have hsbs : s.bound_start = true := by rw [wf_head_bs hwf hs, hbs]
        have hj0 : j = 0 := hj3 hsbs
        subst hj0
        have hnone : ∀ y, y ∉ s.matchIter d 0 := by
          rw [List.isEmpty_iff.mp hE]
          intro y hy
          exact absurd hy (List.not_mem_nil y)
        rcases hcases with hge | ⟨hgt, hdpos, hmis⟩
        · by_cases hm : sectionMatchesAt s d 0 = true
          · by_cases hbe : s.bound_end = true
            · have hkL' := hj4 hbe
              simp only [List.length_append] at hkL'
              by_cases hkL : s.elements.length = d.length
              · exact hnone _ ((mem_sectionMatchIter (le_refl (0 : Int))).mpr
                  ⟨0, by omega, by omega, fun _ => rfl, fun _ => by omega, hm, rfl⟩)
              · omega
            · exact hnone _ ((mem_sectionMatchIter (le_refl (0 : Int))).mpr
                ⟨0, by omega, by omega, fun _ => rfl,
                  fun hcon2 => absurd hcon2 hbe, hm, rfl⟩)
          · rw [← sectionMatchesAt_append s d tail 0 (by omega)] at hm
            exact hm hj5
        · have hik : d.length - 1 < s.elements.length := by omega
          have hpair := sectionMatchesAt_elem hj5 hik (by simpa using hj2)
          simp only [Nat.zero_add] at hpair
          have hbd : d.length - 1 < (d ++ tail).length := by
            simp only [List.length_append]
            omega
          have hidx : (d ++ tail)[d.length - 1] = d[d.length - 1] :=
            List.getElem_append_left (by omega)
          rw [hidx] at hpair
          rw [List.getD_eq_getElem s.elements (Matcher.const "") hik,
            getLastD_eq_getElem d "" hdpos] at hmis
          rw [hmis] at hpair
          exact absurd hpair (by simp)
      · rw [if_neg hE] at hN
        by_cases hexd : existsMatch d (s :: rest) 0 = true
        · rw [if_pos hexd] at hN
          obtain ⟨hlen1, hbs, hbe⟩ :=
            successVerdict_N (by unfold BIT_NO_SUBDIRECTORIES at hN; exact hN)
          have hrest0 : rest = [] := by
            rw [hs] at hlen1
            simpa using hlen1
          subst hrest0
          have hsbs : s.bound_start = true := by rw [wf_head_bs hwf hs, hbs]
          have hsbe : s.bound_end = true := by rw [wf_single_be hwf hs, hbe]
          simp only [existsMatch, List.any_eq_true] at hexd
          rcases hexd with ⟨y, hy, _⟩
          rcases (mem_sectionMatchIter (le_refl (0 : Int))).mp hy with
            ⟨j2, _, _, hj3d, hj4d, _, rfl⟩
          have hj20 : j2 = 0 := hj3d hsbs
          have hkL : j2 + s.elements.length = d.length := hj4d hsbe
          have hj0 : j = 0 := hj3 hsbs
          have hkL' := hj4 hsbe
          simp only [List.length_append] at hkL'
          omega
        · rw [if_neg hexd] at hN
          exact absurd hN (by unfold NO_MATCH BIT_NO_SUBDIRECTORIES; decide)

theorem c2_witness :
    (Pattern.ofElements ["src", "**"]).match_directory
        (["doc"] ++ ["x"]) &&& BIT_MATCH = 0 :=
  c2_prune_soundness (Pattern.ofElements ["src", "**"]) (by decide)
    ["doc"] ["x"] (by decide) (by decide)

/-- Sections produced by the splitting loop carry cleared bound flags. -/
theorem buildSections_flags :
    ∀ (l frag : List String), ∀ sec ∈ buildSections l frag,
      sec.bound_start = false ∧ sec.bound_end = false := by
  intro l
  induction l with
  | nil =>
      intro frag sec h
      unfold buildSections at h
      split at h
      · rcases List.mem_singleton.mp h with rfl
        exact ⟨rfl, rfl⟩
      · exact absurd h (List.not_mem_nil sec)
  | cons e rest ih =>
      intro frag sec h
      unfold buildSections at h
      split at h
      · rcases List.mem_append.mp h with hl | hr
        · split at hl
          · rcases List.mem_singleton.mp hl with rfl
            exact ⟨rfl, rfl⟩
          · exact absurd hl (List.not_mem_nil sec)
        · exact ih [] sec hr
      · exact ih (frag ++ [e]) sec h

/-- `applyBounds` installs exactly the shape recorded by `Pattern.wfB`. -/
theorem wfB_mk (bs be : Bool) (fp : String) (secs : List Section)
    (h : ∀ sec ∈ secs, sec.bound_start = false ∧ sec.bound_end = false) :
    (Pattern.mk (applyBounds bs be secs) bs be fp).wfB = true := by
  cases secs with
  | nil => cases bs <;> cases be <;> rfl
  | cons s rest =>
      have hs := h s (List.mem_cons_self s rest)
      rcases List.eq_nil_or_concat rest with rfl | ⟨L, b, rfl⟩
      · cases bs <;> cases be <;>
          simp [applyBounds, Pattern.wfB, hs.1, hs.2]
      · rw [List.concat_eq_append]
        have hb := h b (by simp)
        have hL : ∀ sec ∈ L, sec.bound_start = false ∧ sec.bound_end = false :=
          fun sec hsec => h sec (by simp [hsec])
        have g1 : ∀ (z b2 : Section), (z :: (L ++ [b2])).getLast? = some b2 := by
          intro z b2
          rw [← List.cons_append, List.getLast?_concat]
        have g2 : ∀ (z b2 : Section), (z :: (L ++ [b2])).dropLast = z :: L := by
          intro z b2
          rw [← List.cons_append, List.dropLast_concat]
        have happ : applyBounds bs be (s :: (L ++ [b])) =
            (if bs = true then { s with bound_start := true } else s) ::
              (L ++ [if be = true then { b with bound_end := true } else b]) := by
          unfold applyBounds
          cases bs <;> cases be <;> simp [g1, g2]
        rw [happ]
        unfold Pattern.wfB
        simp only [List.head?_cons, List.tail_cons, g1, g2, Bool.and_eq_true,
          beq_iff_eq, List.all_eq_true, List.all_append, List.mem_append,
          List.mem_singleton, List.all_cons]
        refine ⟨⟨⟨?_, ?_, ?_⟩, ?_⟩, ?_, ?_⟩
        · cases bs <;> simp [hs.1]
        · intro x hx
          exact (hL x hx).1
        · cases be <;> simp [hb.1]
        · cases be <;> simp [hb.2]
        · cases bs <;> simp [hs.2]
        · intro x hx
          exact (hL x hx).2

/-- Every pattern built by `Pattern.__init__` satisfies the flag-propagation
invariant. -/
theorem ofElements_wfB (elements : List String) :
    (Pattern.ofElements elements).wfB = true := by
  unfold Pattern.ofElements
  exact wfB_mk _ _ _ _ (buildSections_flags _ _)

/-- **C4** (counterexample): compiling `/src/**` does produce the two
expected `Pattern`s, but on `["src"]` the first returns
`MATCH_ALL_SUBDIRECTORIES` (not `MATCH`) and the second returns
`NO_MATCH_NO_SUBDIRECTORIES` (not `MATCH_BUT_NO_SUBDIRECTORIES`). -/
theorem c4_counterexample :
    Pattern.create "/src/**" =
      .ok (.set [Pattern.ofElements ["src", "**"], Pattern.ofElements ["src"]]) ∧
    (Pattern.ofElements ["src", "**"]).match_directory ["src"] ≠ MATCH ∧
    (Pattern.ofElements ["src"]).match_directory ["src"] ≠
      MATCH_BUT_NO_SUBDIRECTORIES := by
  refine ⟨by decide, by decide, by decide⟩

/-- **C4** (amended): compiling the glob `/src/**` produces a `PatternSet`
of exactly two `Pattern`s — the one with the trailing `**` first, the one
without it second; evaluated on the directory `["src"]`, the first returns
`MATCH_ALL_SUBDIRECTORIES` and the second returns
`NO_MATCH_NO_SUBDIRECTORIES`. -/
theorem c4_create_src_expansion :
    Pattern.create "/src/**" =
      .ok (.set [Pattern.ofElements ["src", "**"], Pattern.ofElements ["src"]]) ∧
    (Pattern.ofElements ["src", "**"]).match_directory ["src"] =
      MATCH_ALL_SUBDIRECTORIES ∧
    (Pattern.ofElements ["src"]).match_directory ["src"] =
      NO_MATCH_NO_SUBDIRECTORIES := by
  refine ⟨by decide, by decide, by decide⟩

/-! ### `PatternSet` laws -/

/-- The union of the per-`Pattern` file matches over the (original)
*unmatched* set. -/
def unionMatches (pats : List Pattern) (unmatched : Finset String) : Finset String :=
  pats.foldr (fun p acc => (unmatched.filter fun f => p.filePred f) ∪ acc) ∅

theorem mem_unionMatches {pats : List Pattern} {u : Finset String} {x : String} :
    x ∈ unionMatches pats u ↔ x ∈ u ∧ ∃ p ∈ pats, p.filePred x = true := by
  induction pats with
  | nil => simp [unionMatches]
  | cons p rest ih =>
      simp only [unionMatches, List.foldr_cons] at ih ⊢
      simp only [Finset.mem_union, Finset.mem_filter, ih, List.mem_cons]
      constructor
      · rintro (⟨h1, h2⟩ | ⟨h1, q, hq, h2⟩)
        · exact ⟨h1, p, Or.inl rfl, h2⟩
        · exact ⟨h1, q, Or.inr hq, h2⟩
      · rintro ⟨h1, q, rfl | hq, h2⟩
        · exact Or.inl ⟨h1, h2⟩
        · exact Or.inr ⟨h1, q, hq, h2⟩

/-- The loop of `PatternSet.match_files`, including its early exit, moves
exactly the union of the per-pattern matches over the original *unmatched*
set. -/
theorem psMatchFilesGo_spec (pats : List Pattern) :
    ∀ m u : Finset String,
      (psMatchFilesGo pats m u).1 = m ∪ unionMatches pats u ∧
      (psMatchFilesGo pats m u).2 = u \ unionMatches pats u := by
  induction pats with
  | nil =>
      intro m u
      simp [psMatchFilesGo, unionMatches]
  | cons p rest ih =>
      intro m u
      simp only [psMatchFilesGo, Pattern.match_files]
      by_cases hz : u \ (u.filter fun f => p.filePred f) = ∅
      · rw [if_pos hz]
        have hsub : ∀ y ∈ u, p.filePred y = true := by
          intro y hy
          by_contra hn
          have hmem2 : y ∈ u \ (u.filter fun f => p.filePred f) :=
            Finset.mem_sdiff.mpr ⟨hy, fun hmem => hn (Finset.mem_filter.mp hmem).2⟩
          rw [hz] at hmem2
          exact absurd hmem2 (Finset.not_mem_empty y)
        constructor
        · ext x
          simp only [Finset.mem_union, Finset.mem_filter, mem_unionMatches,
            List.mem_cons, exists_eq_or_imp]
          by_cases hu : x ∈ u
          · simp [hu, hsub x hu]
          · simp [hu]
        · rw [hz]
          ext x
          simp only [Finset.not_mem_empty, false_iff, Finset.mem_sdiff,
            mem_unionMatches, List.mem_cons, exists_eq_or_imp, not_and]
          intro hx
          simp [hsub x hx, hx]
      · rw [if_neg hz]
        obtain ⟨ih1, ih2⟩ := ih (m ∪ u.filter fun f => p.filePred f)
          (u \ (u.filter fun f => p.filePred f))
        refine ⟨?_, ?_⟩
        · rw [ih1]
          ext x
          simp only [Finset.mem_union, Finset.mem_filter, Finset.mem_sdiff,
            mem_unionMatches, List.mem_cons, exists_eq_or_imp, not_and]
          by_cases hu : x ∈ u <;> by_cases hp : p.filePred x = true <;>
            simp [hu, hp]
        · rw [ih2]
          ext x
          simp only [Finset.mem_sdiff, Finset.mem_filter, mem_unionMatches,
            List.mem_cons, exists_eq_or_imp, not_and, not_or]
          by_cases hu : x ∈ u <;> by_cases hp : p.filePred x = true <;>
            simp [hu, hp]

/-- **C8** (amended): after `PatternSet.match_files`, *matched* is the
original *matched* united with the union of per-`Pattern` file matches over
the original *unmatched*; *unmatched* is the original *unmatched* minus that
union; and disjointness is preserved — including through the early
termination on an empty *unmatched*. -/
theorem c8_match_files_sets (s : PatternSet) (m u : Finset String)
    (hdisj : Disjoint m u) :
    (s.match_files m u).1 =
      m ∪ unionMatches (s.patterns.map fun q => q.pat) u ∧
    (s.match_files m u).2 =
      u \ unionMatches (s.patterns.map fun q => q.pat) u ∧
    Disjoint (s.match_files m u).1 (s.match_files m u).2 := by
  obtain ⟨h1, h2⟩ := psMatchFilesGo_spec (s.patterns.map fun q => q.pat) m u
  refine ⟨h1, h2, ?_⟩
  unfold PatternSet.match_files
  rw [h1, h2]
  rw [Finset.disjoint_left]
  intro x hx hmem
  rcases Finset.mem_sdiff.mp hmem with ⟨hxu, hxnm⟩
  rcases Finset.mem_union.mp hx with hxm | hxum
  · exact absurd hxu (Finset.disjoint_left.mp hdisj hxm)
  · exact hxnm hxum

theorem c8_witness :
    ((PatternSet.mk [PObj.mk 0 (Pattern.ofElements ["**", "b"])]
        (some false)).match_files {"z"} {"a"}).1 =
      {"z"} ∪ unionMatches
        ((PatternSet.mk [PObj.mk 0 (Pattern.ofElements ["**", "b"])]
          (some false)).patterns.map fun q => q.pat) {"a"} ∧
    ((PatternSet.mk [PObj.mk 0 (Pattern.ofElements ["**", "b"])]
        (some false)).match_files {"z"} {"a"}).2 =
      {"a"} \ unionMatches
        ((PatternSet.mk [PObj.mk 0 (Pattern.ofElements ["**", "b"])]
          (some false)).patterns.map fun q => q.pat) {"a"} ∧
    Disjoint
      ((PatternSet.mk [PObj.mk 0 (Pattern.ofElements ["**", "b"])]
        (some false)).match_files {"z"} {"a"}).1
      ((PatternSet.mk [PObj.mk 0 (Pattern.ofElements ["**", "b"])]
        (some false)).match_files {"z"} {"a"}).2 :=
  c8_match_files_sets _ {"z"} {"a"} (by decide)

/-- **C8** (counterexample): with a non-empty original *matched* set, the
*matched* set after the call differs from the bare union of per-`Pattern`
file matches over the original *unmatched* set. -/
theorem c8_counterexample :
    ((PatternSet.mk [PObj.mk 0 (Pattern.ofElements ["**", "b"])]
        (some false)).match_files {"z"} {"a"}).1 ≠
      unionMatches
        ((PatternSet.mk [PObj.mk 0 (Pattern.ofElements ["**", "b"])]
          (some false)).patterns.map fun q => q.pat) {"a"} := by
  decide

/-! ### The lazy `_all_files` cache -/

/-- States of a `PatternSet` reachable from `PatternSet()` by `append`,
`extend` and `remove` (a failed `remove` leaves the state it raised in). -/
inductive Reachable : PatternSet → Prop where
  | init : Reachable PatternSet.init
  | append (s : PatternSet) (q : PObj) : Reachable s → Reachable (s.append q)
  | extend (s : PatternSet) (qs : List PObj) : Reachable s →
      Reachable (s.extendList qs)
  | removeOk (s s' : PatternSet) (q : PObj) : Reachable s →
      s.remove q = .ok s' → Reachable s'
  | removeErr (s s' : PatternSet) (q : PObj) : Reachable s →
      s.remove q = .error s' → Reachable s'

/-- Invariant: whenever the cache is known (non-`None`), it equals the
disjunction of `all_files()` over the members. -/
theorem reachable_cache_invariant {s : PatternSet} (hr : Reachable s) :
    s.all_files_cache = none ∨ s.all_files_cache = some s.computeAllFiles := by
  induction hr with
  | init => exact Or.inr rfl
  | append t q _ ih =>
      rcases ih with hnone | hsome
      · simp [PatternSet.append, hnone]
      · refine Or.inr ?_
        simp only [PatternSet.append, hsome, PatternSet.computeAllFiles,
          List.any_append, List.any_cons, List.any_nil, Bool.or_false]
  | extend t qs _ _ => exact Or.inl rfl
  | removeOk t t' q _ hrem _ =>
      unfold PatternSet.remove at hrem
      split at hrem
      · simp only [Except.ok.injEq] at hrem
        exact Or.inl (by rw [← hrem])
      · exact absurd hrem (by simp)
  | removeErr t t' q _ hrem ih =>
      unfold PatternSet.remove at hrem
      split at hrem
      · exact absurd hrem (by simp)
      · simp only [Except.error.injEq] at hrem
        rw [← hrem]
        exact ih

/-- **C9**: in every reachable state, `all_files()` returns `True` exactly
when some member pattern matches all files, and a known cache value always
equals that disjunction over the current members. -/
theorem c9_all_files_lazy_cache (s : PatternSet) (hr : Reachable s) :
    ((s.allFiles).1 = true ↔ ∃ q ∈ s.patterns, q.pat.all_files = true) ∧
    (∀ v : Bool, s.all_files_cache = some v → v = s.computeAllFiles) := by
  have hinv := reachable_cache_invariant hr
  constructor
  · unfold PatternSet.allFiles
    rcases hcache : s.all_files_cache with _ | v
    · simp only [PatternSet.computeAllFiles, List.any_eq_true]
    · rcases hinv with hnone | hsome
      · rw [hcache] at hnone
        exact absurd hnone (by simp)
      · rw [hcache] at hsome
        simp only [Option.some.injEq] at hsome
        rw [hsome]
        simp only [PatternSet.computeAllFiles, List.any_eq_true]
  · intro v hv
    rcases hinv with hnone | hsome
    · rw [hv] at hnone
      exact absurd hnone (by simp)
    · rw [hv] at hsome
      simpa using hsome

theorem c9_witness :
    (((PatternSet.init.append
        (PObj.mk 0 (Pattern.ofElements ["**", "b"]))).allFiles).1 = true ↔
      ∃ q ∈ (PatternSet.init.append
        (PObj.mk 0 (Pattern.ofElements ["**", "b"]))).patterns,
        q.pat.all_files = true) ∧
    (∀ v : Bool,
      (PatternSet.init.append
        (PObj.mk 0 (Pattern.ofElements ["**", "b"]))).all_files_cache = some v →
      v = (PatternSet.init.append
        (PObj.mk 0 (Pattern.ofElements ["**", "b"]))).computeAllFiles) :=
  c9_all_files_lazy_cache _
    (Reachable.append _ _ Reachable.init)

/-- **C10**: removing a pattern that is not a member (by object identity)
raises, and the state carried out of the failed call is unchanged — same
pattern list, same cache; the invalidation after the removal is never
reached. -/
theorem c10_remove_missing (s : PatternSet) (q : PObj)
    (h : ∀ r ∈ s.patterns, r.oid ≠ q.oid) :
    s.remove q = .error s := by
  unfold PatternSet.remove
  rw [if_neg]
  simp only [List.any_eq_true, not_exists, not_and]
  intro r hr hbeq
  exact h r hr (by simpa using hbeq)

theorem c10_witness :
    (PatternSet.init.append
        (PObj.mk 0 (Pattern.ofElements ["**", "b"]))).remove
      (PObj.mk 1 (Pattern.ofElements ["**", "b"])) =
    .error (PatternSet.init.append
      (PObj.mk 0 (Pattern.ofElements ["**", "b"]))) :=
  c10_remove_missing _ _ (by decide)

/-! ### Separator collapsing (C5)

`Pattern.create` performs a single non-overlapping `replace('//', '/')`
pass.  The claim asserts full collapsing of maximal separator runs; the
definitions below give that normal form (from the claim's words) and the
decidable side conditions under which the two coincide. -/

/-- The claim's transformation: every maximal run of `/` collapses to a
single `/`. -/
def fullCollapse : List Char → List Char
  | [] => []
  | [c] => [c]
  | c1 :: c2 :: rest =>
      if c1 == '/' && c2 == '/' then fullCollapse (c2 :: rest)
      else c1 :: fullCollapse (c2 :: rest)

/-- Three consecutive separators somewhere in the string. -/
def hasTripleSlash : List Char → Bool
  | c1 :: c2 :: c3 :: rest =>
      (c1 == '/' && c2 == '/' && c3 == '/') || hasTripleSlash (c2 :: c3 :: rest)
  | _ => false

/-- Two consecutive separators somewhere in the string. -/
def hasDoubleSlash : List Char → Bool
  | c1 :: c2 :: rest => (c1 == '/' && c2 == '/') || hasDoubleSlash (c2 :: rest)
  | _ => false

theorem toList_mk (l : List Char) : (String.mk l).toList = l := rfl

theorem hasTripleSlash_tail {c : Char} {l : List Char}
    (h : hasTripleSlash (c :: l) = false) : hasTripleSlash l = false := by
  match l with
  | [] => rfl
  | [c2] => rfl
  | c2 :: c3 :: rest =>
      rw [hasTripleSlash] at h
      simp only [Bool.or_eq_false_iff] at h
      exact h.2

/-- With no run of three separators, the single replace pass and full
collapsing agree. -/
theorem collapsePairs_eq_full :
    ∀ (n : Nat) (l : List Char), l.length ≤ n → hasTripleSlash l = false →
      collapsePairs l = fullCollapse l := by
  intro n
  induction n with
  | zero =>
      intro l hl _
      cases l with
      | nil => rfl
      | cons c t => simp at hl
  | succ n ih =>
      intro l hl ht
      match l with
      | [] => rfl
      | [c] => rfl
      | c1 :: c2 :: rest =>
          by_cases h12 : (c1 == '/' && c2 == '/') = true
          · simp only [collapsePairs, fullCollapse, h12, if_true]
            obtain ⟨hc1, hc2⟩ : c1 = '/' ∧ c2 = '/' := by
              simpa using h12
            subst hc1
            subst hc2
            cases rest with
            | nil => simp [collapsePairs, fullCollapse]
            | cons c3 rest2 =>
                have hc3 : (c3 == '/') = false := by
                  rw [hasTripleSlash] at ht
                  simp only [Bool.or_eq_false_iff] at ht
                  simpa using ht.1
                rw [show fullCollapse ('/' :: c3 :: rest2) =
                    '/' :: fullCollapse (c3 :: rest2) by
                  rw [fullCollapse]
                  simp [hc3]]
                have ht3 : hasTripleSlash (c3 :: rest2) = false :=
                  hasTripleSlash_tail (hasTripleSlash_tail ht)
                rw [ih (c3 :: rest2) (by simp at hl ⊢; omega) ht3]
          · simp only [collapsePairs, fullCollapse, h12, if_false,
              Bool.false_eq_true]
            rw [ih (c2 :: rest) (by simp at hl ⊢; omega)
              (hasTripleSlash_tail ht)]

/-- The replace pass is the identity on strings with no `//`. -/
theorem collapsePairs_of_noDouble :
    ∀ l : List Char, hasDoubleSlash l = false → collapsePairs l = l := by
  intro l
  induction l with
  | nil => intro _; rfl
  | cons c1 t ih =>
      intro h
      cases t with
      | nil => rfl
      | cons c2 rest =>
          rw [hasDoubleSlash] at h
          simp only [Bool.or_eq_false_iff] at h
          rw [collapsePairs]
          simp only [h.1, Bool.false_eq_true, if_false]
          rw [ih h.2]

/-- Full collapsing keeps the head character. -/
theorem fullCollapse_cons :
    ∀ (l : List Char) (c : Char), ∃ t, fullCollapse (c :: l) = c :: t := by
  intro l
  induction l with
  | nil => intro c; exact ⟨[], rfl⟩
  | cons c2 rest ih =>
      intro c
      by_cases h : (c == '/' && c2 == '/') = true
      · obtain ⟨t, htl⟩ := ih c2
        obtain ⟨hc, hc2⟩ : c = '/' ∧ c2 = '/' := by simpa using h
        refine ⟨t, ?_⟩
        rw [fullCollapse, if_pos h, htl, hc, hc2]
      · exact ⟨fullCollapse (c2 :: rest), by rw [fullCollapse, if_neg (by simpa using h)]⟩

/-- The output of full collapsing has no `//`. -/
theorem noDouble_fullCollapse : ∀ l : List Char,
    hasDoubleSlash (fullCollapse l) = false := by
  intro l
  induction l with
  | nil => rfl
  | cons c1 t ih =>
      cases t with
      | nil => rfl
      | cons c2 rest =>
          by_cases h : (c1 == '/' && c2 == '/') = true
          · rw [fullCollapse, if_pos h]
            exact ih
          · rw [fullCollapse, if_neg (by simpa using h)]
            obtain ⟨t2, ht2⟩ := fullCollapse_cons rest c2
            rw [ht2]
            rw [ht2] at ih
            rw [hasDoubleSlash]
            simp only [Bool.or_eq_false_iff]
            exact ⟨by simpa using h, ih⟩

/-- Full collapsing only keeps characters of the input. -/
theorem fullCollapse_subset :
    ∀ (l : List Char) (c : Char), c ∈ fullCollapse l → c ∈ l := by
  intro l
  induction l with
  | nil => intro c h; exact absurd h (List.not_mem_nil c)
  | cons c1 t ih =>
      intro c h
      cases t with
      | nil => exact h
      | cons c2 rest =>
          by_cases h12 : (c1 == '/' && c2 == '/') = true
          · rw [fullCollapse, if_pos h12] at h
            exact List.mem_cons_of_mem c1 (ih c h)
          · rw [fullCollapse, if_neg (by simpa using h12)] at h
            rcases List.mem_cons.mp h with rfl | h2
            · exact List.mem_cons_self c _
            · exact List.mem_cons_of_mem c1 (ih c h2)

/-- `replace('\\', '/')` is the identity on backslash-free strings. -/
theorem bts_id : ∀ l : List Char, ('\\' ∉ l) → backslashToSlash l = l := by
  intro l
  induction l with
  | nil => intro _; rfl
  | cons c t ih =>
      intro h
      unfold backslashToSlash at ih ⊢
      simp only [List.map_cons]
      rw [if_neg (by
        intro hc
        exact h (by rw [show c = '\\' by simpa using hc]; exact List.mem_cons_self _ _))]
      rw [ih (fun hm => h (List.mem_cons_of_mem c hm))]

/-- **C5** (counterexample): a run of three separators does not compile like
its single-separator form — `a///b` and `a/b` yield different patterns. -/
theorem c5_counterexample : Pattern.create "a///b" ≠ Pattern.create "a/b" := by
  decide

/-- **C5** (amended): compilation performs one non-overlapping
`replace('//', '/')` pass, so a backslash-free glob with no three
consecutive separators compiles exactly like its form with every maximal
separator run collapsed; globs with longer runs (such as `a///b`) do not. -/
theorem c5_separator_collapsing (g : String) (hnb : '\\' ∉ g.toList)
    (ht : hasTripleSlash g.toList = false) :
    Pattern.create g = Pattern.create (String.mk (fullCollapse g.toList)) := by
  have hbts : backslashToSlash g.toList = g.toList := bts_id _ hnb
  have hX : '\\' ∉ fullCollapse g.toList :=
    fun hc => hnb (fullCollapse_subset _ _ hc)
  have hbtsX : backslashToSlash (fullCollapse g.toList) = fullCollapse g.toList :=
    bts_id _ hX
  unfold Pattern.create
  simp only [String.toList] at hbts hbtsX ht ⊢
  rw [hbts, hbtsX, collapsePairs_eq_full g.data.length g.data (le_refl _) ht,
    collapsePairs_of_noDouble _ (noDouble_fullCollapse g.data)]

theorem c5_witness :
    Pattern.create "a//b" =
      Pattern.create (String.mk (fullCollapse ("a//b" : String).toList)) :=
  c5_separator_collapsing "a//b" (by decide) (by decide)

/-! ### Compile-time errors (C6) -/

/-- The component list `Pattern.create` actually splits: the glob after the
backslash conversion and the single separator-collapsing pass. -/
def globComponents (g : String) : List String :=
  splitOnSlash (collapsePairs (backslashToSlash g.toList)) []

/-- A `..` component makes the simplification loop raise `PatternError`. -/
theorem simplifyLoop_error_of_mem :
    ∀ (l : List String) (prev : Option String) (acc : List String),
      ".." ∈ l → simplifyLoop l prev acc = .error .patternError := by
  intro l
  induction l with
  | nil =>
      intro prev acc h
      exact absurd h (List.not_mem_nil _)
  | cons e rest ih =>
      intro prev acc h
      rw [simplifyLoop]
      by_cases he : e = ".."
      · rw [if_pos (by simpa using he)]
      · rw [if_neg (by simpa using he)]
        have hmem : ".." ∈ rest := by
          rcases List.mem_cons.mp h with h1 | h1
          · exact absurd h1.symm he
          · exact h1
        split
        · exact ih prev acc hmem
        · split
          · exact ih prev acc hmem
          · exact ih (some e) (acc ++ [normcase e]) hmem

/-- Without a `..` component the loop succeeds, and returns the empty list
exactly when the accumulator was empty and every element was `.`. -/
theorem simplifyLoop_ok :
    ∀ (l : List String) (prev : Option String) (acc : List String),
      ".." ∉ l → (prev = some "**" → acc ≠ []) →
      ∃ r, simplifyLoop l prev acc = .ok r ∧
        (r = [] ↔ acc = [] ∧ ∀ e ∈ l, e = ".") := by
  intro l
  induction l with
  | nil =>
      intro prev acc _ _
      refine ⟨acc, rfl, ?_⟩
      simp
  | cons e rest ih =>
      intro prev acc hdd hinv
      have hdd' : ".." ∉ rest := fun h => hdd (List.mem_cons_of_mem e h)
      have he1 : ¬e = ".." := fun h => hdd (by rw [← h]; exact List.mem_cons_self e rest)
      rw [simplifyLoop, if_neg (by simpa using he1)]
      by_cases he2 : e = "."
      · rw [if_pos (by simpa using he2)]
        obtain ⟨r, hr, hiff⟩ := ih prev acc hdd' hinv
        refine ⟨r, hr, ?_⟩
        rw [hiff]
        constructor
        · rintro ⟨h1, h2⟩
          refine ⟨h1, fun x hx => ?_⟩
          rcases List.mem_cons.mp hx with rfl | hx2
          · exact he2
          · exact h2 x hx2
        · rintro ⟨h1, h2⟩
          exact ⟨h1, fun x hx => h2 x (List.mem_cons_of_mem e hx)⟩
      · rw [if_neg (by simpa using he2)]
        by_cases he3 : (e == "**" && prev == some "**") = true
        · rw [if_pos he3]
          obtain ⟨r, hr, hiff⟩ := ih prev acc hdd' hinv
          refine ⟨r, hr, ?_⟩
          have hacc : acc ≠ [] := by
            apply hinv
            have := he3
            simp only [Bool.and_eq_true, beq_iff_eq] at this
            rw [this.2]
          rw [hiff]
          constructor
          · rintro ⟨h1, _⟩
            exact absurd h1 hacc
          · rintro ⟨h1, _⟩
            exact absurd h1 hacc
        · rw [if_neg he3]
          obtain ⟨r, hr, hiff⟩ := ih (some e) (acc ++ [normcase e]) hdd'
            (fun _ => by simp)
          refine ⟨r, hr, ?_⟩
          rw [hiff]
          constructor
          · rintro ⟨h1, _⟩
            exact absurd h1 (by simp)
          · rintro ⟨_, h2⟩
            exact absurd (h2 e (List.mem_cons_self e rest)) he2

/-- `Pattern.create` is the simplification of the split components followed
by the (error-free) pattern construction. -/
theorem create_eq_bind (g : String) :
    Pattern.create g = (simplify (globComponents g)).bind (fun elements =>
      if elements.length > 1 && elements.getLastD "" == "**" then
        Except.ok (.set [Pattern.ofElements elements,
          Pattern.ofElements elements.dropLast])
      else Except.ok (.pat (Pattern.ofElements elements))) := rfl

/-- Characterisation of `simplify`: `PatternError` for a `..` component,
`IndexError` when everything was dropped, success otherwise. -/
theorem simplify_cases (l : List String) :
    (simplify l = .error .patternError ↔ ".." ∈ l) ∧
    (simplify l = .error .indexError ↔ ".." ∉ l ∧ ∀ e ∈ l, e = ".") := by
  by_cases hdd : ".." ∈ l
  · have hsim : simplify l = .error .patternError := by
      unfold simplify
      rw [simplifyLoop_error_of_mem l none [] hdd]
      rfl
    rw [hsim]
    refine ⟨⟨fun _ => hdd, fun _ => rfl⟩, ⟨fun h => ?_, fun h => absurd hdd h.1⟩⟩
    simp at h
  · obtain ⟨r, hr, hiff⟩ := simplifyLoop_ok l none [] hdd (fun h => by simp at h)
    have h0 : simplify l =
        (match r.getLast? with
         | none => Except.error CreateError.indexError
         | some last =>
             match (if last == "" then r.dropLast ++ ["**"] else r) with
             | [] => Except.error CreateError.indexError
             | first :: rest =>
                 if first == "" then Except.ok rest
                 else if first != "**" then Except.ok ("**" :: first :: rest)
                 else Except.ok (first :: rest)) := by
      unfold simplify
      rw [hr]
      rfl
    cases hgl : r.getLast? with
    | none =>
        have hre : r = [] := List.getLast?_eq_none_iff.mp hgl
        rw [hgl] at h0
        have hall : ∀ e ∈ l, e = "." := (hiff.mp hre).2
        rw [h0]
        exact ⟨⟨fun h => by simp at h, fun h => absurd h hdd⟩,
          ⟨fun _ => ⟨hdd, hall⟩, fun _ => rfl⟩⟩
    | some last =>
        have hrne : r ≠ [] := by
          intro h
          rw [h] at hgl
          simp at hgl
        rw [hgl] at h0
        have hne2 : (if last == "" then r.dropLast ++ ["**"] else r) ≠ [] := by
          split
          · simp
          · exact hrne
        have hnotok : ∀ err : CreateError, simplify l ≠ .error err := by
          intro err
          rw [h0]
          split
          · rename_i x1 heq1
            simp at heq1
          · rename_i x2 last2 heq2
            have hl2 : last2 = last := by
              injection heq2 with h
              exact h.symm
            subst hl2
            split
            · rename_i simp2 heq3
              exact absurd heq3 hne2
            · split
              · simp
              · split <;> simp
        refine ⟨⟨fun h => absurd h (hnotok _), fun h => absurd hdd (by simp [h])⟩,
          ⟨fun h => absurd h (hnotok _), fun h => ?_⟩⟩
        exact absurd (hiff.mpr ⟨rfl, h.2⟩) hrne

/-- **C6** (counterexample): the empty glob compiles without an error, and
the glob `.` raises `IndexError` (not `PatternError`) even though it has no
`..` component. -/
theorem c6_counterexample :
    (Pattern.create "").isOk = true ∧
    Pattern.create "." = .error .indexError := by
  refine ⟨by decide, by decide⟩

/-- **C6** (amended): `Pattern.create(glob)` raises `PatternError` exactly
when the glob has a `..` component (after separator normalisation); a glob
whose components are all `.` instead raises `IndexError` at the
`simplified[-1]` subscript; every other glob — the empty string included —
compiles without raising. -/
theorem c6_create_error_characterisation (g : String) :
    (Pattern.create g = .error .patternError ↔ ".." ∈ globComponents g) ∧
    (Pattern.create g = .error .indexError ↔
      ".." ∉ globComponents g ∧ ∀ e ∈ globComponents g, e = ".") ∧
    ((Pattern.create g).isOk = true ↔
      ".." ∉ globComponents g ∧ ¬∀ e ∈ globComponents g, e = ".") := by
  obtain ⟨hpe, hie⟩ := simplify_cases (globComponents g)
  have hcreate : ∀ err : CreateError, Pattern.create g = .error err ↔
      simplify (globComponents g) = .error err := by
    intro err
    rw [create_eq_bind]
    cases hs : simplify (globComponents g) with
    | ok v =>
        simp only [Except.bind]
        constructor
        · intro h
          revert h
          split
          · simp
          · simp
        · intro h
          simp at h
    | error e =>
        simp only [Except.bind]
        constructor
        · intro h
          injection h with h
          rw [h]
        · intro h
          injection h with h
          rw [h]
  refine ⟨(hcreate _).trans hpe, (hcreate _).trans hie, ?_⟩
  constructor
  · intro hok
    constructor
    · intro hmem
      have hx := ((hcreate _).trans hpe).mpr hmem
      rw [hx] at hok
      simp [Except.isOk, Except.toBool] at hok
    · intro hall
      by_cases hmem : ".." ∈ globComponents g
      · have hx := ((hcreate _).trans hpe).mpr hmem
        rw [hx] at hok
        simp [Except.isOk, Except.toBool] at hok
      · have hx := ((hcreate _).trans hie).mpr ⟨hmem, hall⟩
        rw [hx] at hok
        simp [Except.isOk, Except.toBool] at hok
  · rintro ⟨h1, h2⟩
    cases hc : Pattern.create g with
    | ok v => rfl
    | error e =>
        cases e with
        | patternError => exact absurd (((hcreate _).trans hpe).mp hc) h1
        | indexError => exact absurd (((hcreate _).trans hie).mp hc).2 h2

end Foldersync
